import Mathlib

/-!
# Header codec of the Grafana API client (`datasource.go`)

A shallow embedding of `cloneMap`, `JSONDataWithHeaders` and
`ExtractHeadersFromJSONData`, together with the statements about them.

Modelling conventions

* A Go map `map[string]T` is the list of its entries, in the order in which a
  `range` loop visits them.  A list stands for a map when its keys are pairwise
  distinct (`GoMap.WF`).  Go leaves the order of `range` unspecified, so a
  statement that holds for every well-formed list holds for every map and every
  iteration order; two lists are the same map exactly when every key looks up
  the same (`GoMap.Equiv`).
* A value of type `interface{}` is a `Value`; the codec observes of it only
  whether its dynamic type is `string`.
* A failed type assertion is a run-time panic: `Except Panic`.
* `idx` is a Go `int`; it counts the entries of one map, so it never wraps.
* Strings are sequences of characters; the codec takes them apart only at the
  ASCII words `httpHeaderName` and `httpHeaderValue`.
* The functions are pure in the first embedding.  For the statement that the
  maps of the caller are not written to, a second embedding threads a heap of
  map objects through the same code, and is shown to compute the same maps.
-/

namespace Gapi

/-! ## Strings -/

/-- Go `strings.HasPrefix(s, pre)`. -/
def HasPrefix (s pre : String) : Bool :=
  pre.data.isPrefixOf s.data

/-- Worker of `Replace` for a non-empty `old = o :: os`: `skip` counts the
characters of a match that are still to be dropped, `n` the replacements that
are still allowed. -/
def replaceAux (o : Char) (os new : List Char) : List Char → Nat → Nat → List Char
  | [], _, _ => []
  | _ :: cs, skip + 1, n => replaceAux o os new cs skip n
  | c :: cs, 0, 0 => c :: replaceAux o os new cs 0 0
  | c :: cs, 0, n + 1 =>
    if (o :: os).isPrefixOf (c :: cs) then new ++ replaceAux o os new cs os.length n
    else c :: replaceAux o os new cs 0 (n + 1)

/-- Worker of `Replace` for an empty `old`, which matches before every
character and at the end: `new` is put at the first `n` of these places. -/
def insertAux (new : List Char) : List Char → Nat → List Char
  | cs, 0 => cs
  | [], _ + 1 => new
  | c :: cs, n + 1 => new ++ c :: insertAux new cs n

/-- Go `strings.Replace(s, old, new, n)` for `n ≥ 0`: the first `n`
non-overlapping instances of `old`, from the left, are replaced by `new`. -/
def Replace (s old new : String) (n : Nat) : String :=
  match old.data with
  | [] => ⟨insertAux new.data s.data n⟩
  | o :: os => ⟨replaceAux o os new.data s.data 0 n⟩

/-- Go `fmt.Sprintf(pre + "%d", idx)` for a verb-free `pre` and `idx ≥ 0`. -/
def Sprintf_d (pre : String) (idx : Nat) : String :=
  pre ++ Nat.repr idx

/-- The decimal value of a string of digits. -/
def decimalValue (cs : List Char) : Nat :=
  cs.foldl (fun acc c => 10 * acc + (c.toNat - 48)) 0

/-! ## Values and maps -/

/-- A Go `interface{}` value as it occurs in `jsonData` and `secureJSONData`. -/
inductive Value where
  | null
  | bool (b : Bool)
  | number (n : Int)
  | string (s : String)
  deriving DecidableEq, Repr

/-- The dynamic type of the value is `string`: the assertion `x.(string)`
succeeds. -/
def Value.isString : Value → Bool
  | Value.string _ => true
  | _ => false

/-- The panic raised by a failed type assertion `x.(string)`. -/
inductive Panic where
  | interfaceConversion
  deriving DecidableEq, Repr

/-- A Go `map[string]V`: its entries in the order of iteration. -/
abbrev GoMap (V : Type) := List (String × V)

namespace GoMap

variable {V : Type}

/-- The keys of a map are pairwise distinct. -/
def WF (m : GoMap V) : Prop := (m.map Prod.fst).Nodup

instance (m : GoMap V) : Decidable (WF m) := by
  unfold WF; infer_instance

/-- Go `v, ok := m[k]`. -/
def get : GoMap V → String → Option V
  | [], _ => none
  | (k', v) :: m, k => if k' = k then some v else get m k

/-- Go `m[k] = v`: an existing entry is overwritten, a new one is added. -/
def set : GoMap V → String → V → GoMap V
  | [], k, v => [(k, v)]
  | (k', v') :: m, k, v => if k' = k then (k, v) :: m else (k', v') :: set m k v

/-- Go `delete(m, k)`. -/
def delete : GoMap V → String → GoMap V
  | [], _ => []
  | (k', v) :: m, k => if k' = k then delete m k else (k', v) :: delete m k

/-- The key `k` is present in the map. -/
def HasKey (m : GoMap V) (k : String) : Prop := (get m k).isSome = true

instance (m : GoMap V) (k : String) : Decidable (HasKey m k) := by
  unfold HasKey; infer_instance

/-- Two lists hold the same map: every key looks up the same in both. -/
def Equiv (m₁ m₂ : GoMap V) : Prop := ∀ k, get m₁ k = get m₂ k

end GoMap

/-! ## The codec -/

/-- `cloneMap`: a fresh map that receives every entry of `m`. -/
def cloneMap (m : GoMap Value) : GoMap Value :=
  m.foldl (fun clone e => GoMap.set clone e.1 e.2) []

/-- The loop of `JSONDataWithHeaders` over the entries of `headers` that are
still to be visited, with the current `idx` and the two cloned maps. -/
def headersLoop : List (String × String) → Nat → GoMap Value → GoMap Value →
    GoMap Value × GoMap Value
  | [], _, jsonData, secureJSONData => (jsonData, secureJSONData)
  | (name, value) :: rest, idx, jsonData, secureJSONData =>
    headersLoop rest (idx + 1)
      (GoMap.set jsonData (Sprintf_d "httpHeaderName" idx) (Value.string name))
      (GoMap.set secureJSONData (Sprintf_d "httpHeaderValue" idx) (Value.string value))

/-- `JSONDataWithHeaders`. -/
def JSONDataWithHeaders (jsonData secureJSONData : GoMap Value) (headers : GoMap String) :
    GoMap Value × GoMap Value :=
  let jsonData := cloneMap jsonData
  let secureJSONData := cloneMap secureJSONData
  headersLoop headers 1 jsonData secureJSONData

/-- The loop of `ExtractHeadersFromJSONData` over the entries of the cloned
`jsonData` that are still to be visited.  The loop deletes from the map it
ranges over, but only the key of the entry it is visiting, so every entry that
was present when the loop started is visited exactly once. -/
def extractLoop : List (String × Value) → GoMap Value → GoMap Value → GoMap String →
    Except Panic (GoMap Value × GoMap Value × GoMap String)
  | [], jsonData, secureJSONData, headers => .ok (jsonData, secureJSONData, headers)
  | (dataName, dataValue) :: rest, jsonData, secureJSONData, headers =>
    if HasPrefix dataName "httpHeaderName" then
      let jsonData := GoMap.delete jsonData dataName
      let secureDataName := Replace dataName "httpHeaderName" "httpHeaderValue" 1
      let secureJSONData := GoMap.delete secureJSONData secureDataName
      match dataValue with
      | Value.string headerName =>
        extractLoop rest jsonData secureJSONData (GoMap.set headers headerName "true")
      | _ => .error Panic.interfaceConversion
    else extractLoop rest jsonData secureJSONData headers

/-- `ExtractHeadersFromJSONData`. -/
def ExtractHeadersFromJSONData (jsonData secureJSONData : GoMap Value) :
    Except Panic (GoMap Value × GoMap Value × GoMap String) :=
  let jsonData := cloneMap jsonData
  let secureJSONData := cloneMap secureJSONData
  let headers : GoMap String := []
  extractLoop jsonData jsonData secureJSONData headers

/-! ## The codec on a heap

A Go map value is a reference: `nil` or the address of a map object.  To state
that the codec leaves the maps of its caller alone, the functions are given a
second time, as transformers of a heap that holds the map objects; a map
argument is an `Option Nat`, `none` for `nil`.  Objects of the two map types
live in two regions, as a `map[string]string` and a `map[string]interface{}`
are never the same object. -/

/-- The map objects of the program, by address. -/
structure Heap where
  ifaceMaps : List (GoMap Value)
  stringMaps : List (GoMap String)

namespace Heap

/-- The `map[string]interface{}` object at address `a`. -/
def ifaceAt (h : Heap) (a : Nat) : GoMap Value := (h.ifaceMaps[a]?).getD []

/-- The `map[string]string` object at address `a`. -/
def stringAt (h : Heap) (a : Nat) : GoMap String := (h.stringMaps[a]?).getD []

/-- The entries that a map value of type `map[string]interface{}` denotes; a
`nil` map reads as the empty map. -/
def ifaceMap (h : Heap) : Option Nat → GoMap Value
  | none => []
  | some a => h.ifaceAt a

/-- The entries that a map value of type `map[string]string` denotes. -/
def stringMap (h : Heap) : Option Nat → GoMap String
  | none => []
  | some a => h.stringAt a

/-- The map value is `nil` or the address of an allocated object. -/
def ValidIface (h : Heap) : Option Nat → Prop
  | none => True
  | some a => a < h.ifaceMaps.length

/-- The map value is `nil` or the address of an allocated object. -/
def ValidString (h : Heap) : Option Nat → Prop
  | none => True
  | some a => a < h.stringMaps.length

/-- Go `make(map[string]interface{})`: a new, empty object at a new address. -/
def makeIface (h : Heap) : Heap × Nat :=
  (⟨h.ifaceMaps ++ [[]], h.stringMaps⟩, h.ifaceMaps.length)

/-- Go `make(map[string]string)`. -/
def makeString (h : Heap) : Heap × Nat :=
  (⟨h.ifaceMaps, h.stringMaps ++ [[]]⟩, h.stringMaps.length)

/-- Go `m[k] = v` for the `map[string]interface{}` object at address `a`. -/
def ifaceSet (h : Heap) (a : Nat) (k : String) (v : Value) : Heap :=
  ⟨h.ifaceMaps.set a (GoMap.set (h.ifaceAt a) k v), h.stringMaps⟩

/-- Go `delete(m, k)` for the `map[string]interface{}` object at address `a`. -/
def ifaceDelete (h : Heap) (a : Nat) (k : String) : Heap :=
  ⟨h.ifaceMaps.set a (GoMap.delete (h.ifaceAt a) k), h.stringMaps⟩

/-- Go `m[k] = v` for the `map[string]string` object at address `a`. -/
def stringSet (h : Heap) (a : Nat) (k v : String) : Heap :=
  ⟨h.ifaceMaps, h.stringMaps.set a (GoMap.set (h.stringAt a) k v)⟩

end Heap

/-- `cloneMap` on the heap: the address of the clone and the heap that holds
it. -/
def cloneMapH (h : Heap) (m : Option Nat) : Heap × Nat :=
  let entries := h.ifaceMap m
  let made := h.makeIface
  let clone := made.2
  (entries.foldl (fun h e => h.ifaceSet clone e.1 e.2) made.1, clone)

/-- The loop of `JSONDataWithHeaders` on the heap; `jsonData` and
`secureJSONData` are the addresses of the two clones. -/
def headersLoopH : List (String × String) → Nat → Heap → Nat → Nat → Heap
  | [], _, h, _, _ => h
  | (name, value) :: rest, idx, h, jsonData, secureJSONData =>
    let h := h.ifaceSet jsonData (Sprintf_d "httpHeaderName" idx) (Value.string name)
    let h := h.ifaceSet secureJSONData (Sprintf_d "httpHeaderValue" idx) (Value.string value)
    headersLoopH rest (idx + 1) h jsonData secureJSONData

/-- `JSONDataWithHeaders` on the heap: the final heap and the two returned map
values. -/
def JSONDataWithHeadersH (h : Heap) (jsonData secureJSONData headers : Option Nat) :
    Heap × Nat × Nat :=
  let c₁ := cloneMapH h jsonData
  let c₂ := cloneMapH c₁.1 secureJSONData
  (headersLoopH (c₂.1.stringMap headers) 1 c₂.1 c₁.2 c₂.2, c₁.2, c₂.2)

/-- The loop of `ExtractHeadersFromJSONData` on the heap; `jsonData`,
`secureJSONData` and `headers` are the addresses of the two clones and of the
new headers map. -/
def extractLoopH : List (String × Value) → Heap → Nat → Nat → Nat → Except Panic Heap
  | [], h, _, _, _ => .ok h
  | (dataName, dataValue) :: rest, h, jsonData, secureJSONData, headers =>
    if HasPrefix dataName "httpHeaderName" then
      let h := h.ifaceDelete jsonData dataName
      let secureDataName := Replace dataName "httpHeaderName" "httpHeaderValue" 1
      let h := h.ifaceDelete secureJSONData secureDataName
      match dataValue with
      | Value.string headerName =>
        extractLoopH rest (h.stringSet headers headerName "true") jsonData secureJSONData
          headers
      | _ => .error Panic.interfaceConversion
    else extractLoopH rest h jsonData secureJSONData headers

/-- `ExtractHeadersFromJSONData` on the heap: the final heap and the three
returned map values, or the panic. -/
def ExtractHeadersFromJSONDataH (h : Heap) (jsonData secureJSONData : Option Nat) :
    Except Panic (Heap × Nat × Nat × Nat) :=
  let c₁ := cloneMapH h jsonData
  let c₂ := cloneMapH c₁.1 secureJSONData
  let made := c₂.1.makeString
  match extractLoopH (made.1.ifaceAt c₁.2) made.1 c₁.2 c₂.2 made.2 with
  | .ok h' => .ok (h', c₁.2, c₂.2, made.2)
  | .error e => .error e

/-! ## Vocabulary of the statements -/

/-- The heap `h'` has the objects of `h`, changed at most at the addresses
`as` of the interface region and `bs` of the string region. -/
def Heap.Modifies (h h' : Heap) (as bs : List Nat) : Prop :=
  h'.ifaceMaps.length = h.ifaceMaps.length ∧
  h'.stringMaps.length = h.stringMaps.length ∧
  (∀ a, a ∉ as → h'.ifaceAt a = h.ifaceAt a) ∧
  (∀ b, b ∉ bs → h'.stringAt b = h.stringAt b)


/-- The keys that the loop of `ExtractHeadersFromJSONData` treats as header
names, in the order of the visit. -/
def headerKeys (es : List (String × Value)) : List String :=
  (es.filter (fun e => HasPrefix e.1 "httpHeaderName")).map Prod.fst

/-- The header names stored under the keys of `headerKeys`. -/
def headerNames : List (String × Value) → List String
  | [] => []
  | (k, Value.string n) :: es =>
    if HasPrefix k "httpHeaderName" then n :: headerNames es else headerNames es
  | _ :: es => headerNames es

/-- The map after `delete(m, k)` for every `k` of `ks`. -/
def deleteAll {V : Type} (m : GoMap V) (ks : List String) : GoMap V :=
  ks.foldl GoMap.delete m

/-- The map after `m[n] = "true"` for every `n` of `ns`. -/
def setAllTrue (m : GoMap String) (ns : List String) : GoMap String :=
  ns.foldl (fun m n => GoMap.set m n "true") m

/-- The map after `m[pre<idx+i>] = xs[i]` for every position `i` of `xs`. -/
def setNumbered (pre : String) : List String → Nat → GoMap Value → GoMap Value
  | [], _, m => m
  | x :: xs, idx, m =>
    setNumbered pre xs (idx + 1) (GoMap.set m (Sprintf_d pre idx) (Value.string x))

/-- The key is `pre` followed by a decimal number, that is by one or more
decimal digits: the form `httpHeaderName<i>` of the specification. -/
def isNumberedKey (pre k : String) : Bool :=
  HasPrefix k pre && !(k.data.drop pre.length).isEmpty &&
    (k.data.drop pre.length).all Char.isDigit

/-! ## Strings: facts -/

theorem hasPrefix_append (pre s : String) : HasPrefix (pre ++ s) pre = true := by
  simp [HasPrefix, String.data_append]

theorem hasPrefix_iff (s pre : String) :
    HasPrefix s pre = true ↔ ∃ t : String, s = pre ++ t := by
  constructor
  · intro h
    obtain ⟨t, ht⟩ := List.isPrefixOf_iff_prefix.mp h
    exact ⟨⟨t⟩, String.ext (by simp [String.data_append, ht])⟩
  · rintro ⟨t, rfl⟩
    exact hasPrefix_append pre t

theorem replaceAux_zero (o : Char) (os new : List Char) :
    ∀ (cs : List Char) (skip : Nat), replaceAux o os new cs skip 0 = cs.drop skip
  | [], skip => by simp [replaceAux]
  | c :: cs, 0 => by
    have := replaceAux_zero o os new cs 0
    simp [replaceAux, this]
  | c :: cs, skip + 1 => by
    have := replaceAux_zero o os new cs skip
    simp [replaceAux, this]

/-- Replacing the first instance of a non-empty prefix rewrites the prefix. -/
theorem replace_leading (old new t : String) (hold : old.data ≠ []) :
    Replace (old ++ t) old new 1 = new ++ t := by
  obtain ⟨od⟩ := old
  cases od with
  | nil => exact absurd rfl hold
  | cons o os =>
    apply String.ext
    simp [Replace, String.data_append, replaceAux, replaceAux_zero]

theorem digitChar_value (d : Nat) (h : d < 10) : (Nat.digitChar d).toNat - 48 = d := by
  interval_cases d <;> rfl

theorem toDigitsCore_append (fuel : Nat) :
    ∀ (n : Nat) (ds : List Char),
      Nat.toDigitsCore 10 fuel n ds = Nat.toDigitsCore 10 fuel n [] ++ ds := by
  induction fuel with
  | zero => intro n ds; simp [Nat.toDigitsCore]
  | succ fuel ih =>
    intro n ds
    simp only [Nat.toDigitsCore]
    split
    · simp
    · rw [ih (n / 10) (_ :: ds), ih (n / 10) [_]]
      simp

theorem decimalValue_toDigitsCore (fuel : Nat) :
    ∀ n : Nat, n < fuel → decimalValue (Nat.toDigitsCore 10 fuel n []) = n := by
  induction fuel with
  | zero => intro n h; omega
  | succ fuel ih =>
    intro n h
    simp only [Nat.toDigitsCore]
    split
    · rename_i h0
      have hn : n < 10 := by omega
      simp [decimalValue, digitChar_value n hn, Nat.mod_eq_of_lt hn]
    · rename_i h0
      rw [toDigitsCore_append]
      have hlt : n / 10 < fuel := by omega
      have := ih (n / 10) hlt
      simp only [decimalValue, List.foldl_append, List.foldl_cons, List.foldl_nil] at this ⊢
      rw [this, digitChar_value (n % 10) (Nat.mod_lt _ (by decide))]
      omega

theorem decimalValue_repr (n : Nat) : decimalValue (Nat.repr n).data = n := by
  simp only [Nat.repr, Nat.toDigits, List.asString]
  exact decimalValue_toDigitsCore (n + 1) n (Nat.lt_succ_self n)

theorem repr_injective {i j : Nat} (h : Nat.repr i = Nat.repr j) : i = j := by
  have := congrArg (fun s => decimalValue s.data) h
  simpa [decimalValue_repr] using this

/-- Distinct sequence numbers give distinct keys. -/
theorem sprintf_d_injective (pre : String) {i j : Nat}
    (h : Sprintf_d pre i = Sprintf_d pre j) : i = j := by
  apply repr_injective
  have := congrArg String.data h
  simp only [Sprintf_d, String.data_append] at this
  exact String.ext (List.append_cancel_left this)

theorem hasPrefix_sprintf_d (pre : String) (i : Nat) :
    HasPrefix (Sprintf_d pre i) pre = true :=
  hasPrefix_append pre _

theorem replace_sprintf_d (i : Nat) :
    Replace (Sprintf_d "httpHeaderName" i) "httpHeaderName" "httpHeaderValue" 1
      = Sprintf_d "httpHeaderValue" i :=
  replace_leading "httpHeaderName" "httpHeaderValue" _ (by decide)

/-! ## Maps: facts -/

namespace GoMap

variable {V : Type}

theorem get_set (m : GoMap V) (k k' : String) (v : V) :
    get (set m k v) k' = if k = k' then some v else get m k' := by
  induction m with
  | nil => simp [set, get]
  | cons e m ih =>
    obtain ⟨k₀, v₀⟩ := e
    simp only [set]
    split_ifs with h1 h2 <;> simp only [get, ih] <;> split_ifs <;> simp_all

theorem get_set_self (m : GoMap V) (k : String) (v : V) : get (set m k v) k = some v := by
  simp [get_set]

theorem get_set_ne (m : GoMap V) {k k' : String} (v : V) (h : k ≠ k') :
    get (set m k v) k' = get m k' := by
  simp [get_set, h]

theorem get_delete (m : GoMap V) (k k' : String) :
    get (delete m k) k' = if k = k' then none else get m k' := by
  induction m with
  | nil => simp [delete, get]
  | cons e m ih =>
    obtain ⟨k₀, v₀⟩ := e
    simp only [delete]
    split_ifs with h1 h2 <;> simp only [get, ih] <;> split_ifs <;> simp_all

theorem delete_sublist (m : GoMap V) (k : String) : (delete m k).Sublist m := by
  induction m with
  | nil => simp [delete]
  | cons e m ih =>
    obtain ⟨k₀, v₀⟩ := e
    simp only [delete]
    split_ifs
    · exact List.Sublist.cons _ ih
    · exact List.Sublist.cons₂ _ ih

theorem get_eq_none_iff (m : GoMap V) (k : String) :
    get m k = none ↔ k ∉ m.map Prod.fst := by
  induction m with
  | nil => simp [get]
  | cons e m ih =>
    obtain ⟨k₀, v₀⟩ := e
    by_cases h : k₀ = k
    · simp [get, h]
    · have h' : ¬ k = k₀ := fun e => h e.symm
      simp only [get, h, if_false, ih, List.map_cons, List.mem_cons, h', false_or]

theorem hasKey_iff (m : GoMap V) (k : String) : HasKey m k ↔ k ∈ m.map Prod.fst := by
  unfold HasKey
  rw [← not_iff_not, ← get_eq_none_iff]
  cases get m k <;> simp

theorem get_of_mem {m : GoMap V} (hm : WF m) {k : String} {v : V} (h : (k, v) ∈ m) :
    get m k = some v := by
  induction m with
  | nil => simp at h
  | cons e m ih =>
    obtain ⟨k₀, v₀⟩ := e
    have hnd := List.nodup_cons.mp hm
    rcases List.mem_cons.mp h with h | h
    · cases h; simp [get]
    · have hne : k₀ ≠ k := by
        intro e
        have hk : k ∈ m.map Prod.fst := List.mem_map.mpr ⟨(k, v), h, rfl⟩
        exact hnd.1 (by simpa [e] using hk)
      simp [get, hne, ih hnd.2 h]

theorem mem_of_get {m : GoMap V} {k : String} {v : V} (h : get m k = some v) : (k, v) ∈ m := by
  induction m with
  | nil => simp [get] at h
  | cons e m ih =>
    obtain ⟨k₀, v₀⟩ := e
    by_cases hk : k₀ = k
    · subst hk
      simp only [get, if_true, Option.some.injEq] at h
      subst h
      exact List.mem_cons_self _ _
    · simp only [get, hk, if_false] at h
      exact List.mem_cons_of_mem _ (ih h)

theorem set_of_not_mem (m : GoMap V) (k : String) (v : V) (h : k ∉ m.map Prod.fst) :
    set m k v = m ++ [(k, v)] := by
  induction m with
  | nil => simp [set]
  | cons e m ih =>
    obtain ⟨k₀, v₀⟩ := e
    simp only [List.map_cons, List.mem_cons, not_or] at h
    have hne : ¬ k₀ = k := fun e => h.1 e.symm
    simp [set, hne, ih h.2]

theorem keys_set (m : GoMap V) (k : String) (v : V) :
    ∀ k', k' ∈ (set m k v).map Prod.fst ↔ k' = k ∨ k' ∈ m.map Prod.fst := by
  intro k'
  rw [← hasKey_iff, ← hasKey_iff]
  unfold HasKey
  rw [get_set]
  by_cases h : k = k'
  · simp [h]
  · have h' : ¬ k' = k := fun e => h e.symm
    simp [h, h']

theorem wf_set {m : GoMap V} (hm : WF m) (k : String) (v : V) : WF (set m k v) := by
  induction m with
  | nil => simp [set, WF]
  | cons e m ih =>
    obtain ⟨k₀, v₀⟩ := e
    have hnd := List.nodup_cons.mp hm
    by_cases h : k₀ = k
    · subst h
      simpa [set, WF] using hm
    · simp only [set, h, if_false]
      refine List.nodup_cons.mpr ⟨?_, ih hnd.2⟩
      intro hmem
      rcases (keys_set m k v k₀).mp hmem with h' | h'
      · exact h h'
      · exact hnd.1 h'

theorem wf_delete {m : GoMap V} (hm : WF m) (k : String) : WF (delete m k) := by
  unfold WF
  exact List.Nodup.sublist (List.Sublist.map _ (delete_sublist m k)) hm

theorem equiv_of_perm {m₁ m₂ : GoMap V} (hm : WF m₁) (h : m₁.Perm m₂) : Equiv m₁ m₂ := by
  have hm₂ : WF m₂ := (List.Perm.nodup_iff (h.map Prod.fst)).mp hm
  intro k
  cases h₁ : get m₁ k with
  | none =>
    have := (get_eq_none_iff m₁ k).mp h₁
    have h2 : k ∉ m₂.map Prod.fst := fun hk => this ((h.map Prod.fst).mem_iff.mpr hk)
    exact ((get_eq_none_iff m₂ k).mpr h2).symm
  | some v =>
    exact (get_of_mem hm₂ (h.mem_iff.mp (mem_of_get h₁))).symm

end GoMap

theorem foldl_set_eq_append (m acc : GoMap Value)
    (hm : GoMap.WF m) (hd : ∀ k ∈ m.map Prod.fst, k ∉ acc.map Prod.fst) :
    m.foldl (fun clone e => GoMap.set clone e.1 e.2) acc = acc ++ m := by
  induction m generalizing acc with
  | nil => simp
  | cons e m ih =>
    obtain ⟨k, v⟩ := e
    have hnd := List.nodup_cons.mp hm
    have hk : k ∉ acc.map Prod.fst := hd k (by simp)
    simp only [List.foldl_cons]
    rw [GoMap.set_of_not_mem acc k v hk, ih _ hnd.2]
    · simp
    · intro k' hk' hmem
      simp only [List.map_append, List.map_cons, List.map_nil, List.mem_append,
        List.mem_singleton] at hmem
      rcases hmem with hmem | hmem
      · exact hd k' (by simp [hk']) hmem
      · subst hmem
        exact hnd.1 hk'

/-- The clone of a map holds the entries of the map, and `range` may visit them
in the same order. -/
theorem cloneMap_eq (m : GoMap Value) (hm : GoMap.WF m) : cloneMap m = m := by
  unfold cloneMap
  rw [foldl_set_eq_append m [] hm (by simp)]
  simp

/-! ## The loops -/

theorem get_deleteAll {V : Type} (ks : List String) :
    ∀ (m : GoMap V) (k : String),
      GoMap.get (deleteAll m ks) k = if k ∈ ks then none else GoMap.get m k := by
  induction ks with
  | nil => intro m k; simp [deleteAll]
  | cons k₀ ks ih =>
    intro m k
    have := ih (GoMap.delete m k₀) k
    simp only [deleteAll, List.foldl_cons] at this ⊢
    rw [this, GoMap.get_delete]
    by_cases h : k ∈ ks
    · simp [h]
    · by_cases h' : k₀ = k
      · simp [h']
      · have h'' : ¬ k = k₀ := fun e => h' e.symm
        simp [h, h', h'']

theorem wf_deleteAll {V : Type} (ks : List String) :
    ∀ m : GoMap V, GoMap.WF m → GoMap.WF (deleteAll m ks) := by
  induction ks with
  | nil => intro m hm; simpa [deleteAll] using hm
  | cons k₀ ks ih =>
    intro m hm
    have := ih (GoMap.delete m k₀) (GoMap.wf_delete hm k₀)
    simpa [deleteAll] using this

theorem get_setAllTrue (ns : List String) :
    ∀ (m : GoMap String) (n : String),
      GoMap.get (setAllTrue m ns) n = if n ∈ ns then some "true" else GoMap.get m n := by
  induction ns with
  | nil => intro m n; simp [setAllTrue]
  | cons n₀ ns ih =>
    intro m n
    have := ih (GoMap.set m n₀ "true") n
    simp only [setAllTrue, List.foldl_cons] at this ⊢
    rw [this, GoMap.get_set]
    by_cases h : n ∈ ns
    · simp [h]
    · by_cases h' : n₀ = n
      · simp [h']
      · have h'' : ¬ n = n₀ := fun e => h' e.symm
        simp [h, h', h'']

theorem wf_setAllTrue (ns : List String) :
    ∀ m : GoMap String, GoMap.WF m → GoMap.WF (setAllTrue m ns) := by
  induction ns with
  | nil => intro m hm; simpa [setAllTrue] using hm
  | cons n₀ ns ih =>
    intro m hm
    have := ih (GoMap.set m n₀ "true") (GoMap.wf_set hm n₀ "true")
    simpa [setAllTrue] using this

theorem mem_headerKeys (es : List (String × Value)) (k : String) :
    k ∈ headerKeys es ↔ HasPrefix k "httpHeaderName" = true ∧ k ∈ es.map Prod.fst := by
  simp only [headerKeys, List.mem_map, List.mem_filter]
  constructor
  · rintro ⟨e, ⟨he, hp⟩, rfl⟩
    exact ⟨hp, e, he, rfl⟩
  · rintro ⟨hp, e, he, rfl⟩
    exact ⟨e, ⟨he, hp⟩, rfl⟩

theorem mem_headerNames (es : List (String × Value)) (n : String) :
    n ∈ headerNames es ↔
      ∃ k, HasPrefix k "httpHeaderName" = true ∧ (k, Value.string n) ∈ es := by
  induction es with
  | nil => simp [headerNames]
  | cons e es ih =>
    obtain ⟨k₀, v₀⟩ := e
    cases v₀ with
    | string n₀ =>
      simp only [headerNames]
      split_ifs with hp
      · simp only [List.mem_cons, ih, Prod.mk.injEq, Value.string.injEq]
        constructor
        · rintro (rfl | ⟨k, hk, hmem⟩)
          · exact ⟨k₀, hp, Or.inl ⟨rfl, rfl⟩⟩
          · exact ⟨k, hk, Or.inr hmem⟩
        · rintro ⟨k, hk, (⟨rfl, rfl⟩ | hmem)⟩
          · exact Or.inl rfl
          · exact Or.inr ⟨k, hk, hmem⟩
      · simp only [List.mem_cons, ih, Prod.mk.injEq, Value.string.injEq]
        constructor
        · rintro ⟨k, hk, hmem⟩
          exact ⟨k, hk, Or.inr hmem⟩
        · rintro ⟨k, hk, (⟨rfl, rfl⟩ | hmem)⟩
          · exact absurd hk hp
          · exact ⟨k, hk, hmem⟩
    | null | bool _ | number _ =>
      simp only [headerNames, ih, List.mem_cons, Prod.mk.injEq]
      constructor
      · rintro ⟨k, hk, hmem⟩
        exact ⟨k, hk, Or.inr hmem⟩
      · rintro ⟨k, hk, (⟨_, h⟩ | hmem)⟩
        · cases h
        · exact ⟨k, hk, hmem⟩

/-- When every value under a header-name key is a string, the loop returns, and
its three maps are the ones described by `headerKeys` and `headerNames`. -/
theorem extractLoop_ok (es : List (String × Value)) :
    ∀ (j s : GoMap Value) (h : GoMap String),
      (∀ k v, (k, v) ∈ es → HasPrefix k "httpHeaderName" = true → ∃ n, v = Value.string n) →
      extractLoop es j s h = .ok
        (deleteAll j (headerKeys es),
         deleteAll s ((headerKeys es).map
           (fun k => Replace k "httpHeaderName" "httpHeaderValue" 1)),
         setAllTrue h (headerNames es)) := by
  induction es with
  | nil => intro j s h _; simp [extractLoop, headerKeys, headerNames, deleteAll, setAllTrue]
  | cons e es ih =>
    obtain ⟨k₀, v₀⟩ := e
    intro j s h hstr
    have hrest : ∀ k v, (k, v) ∈ es → HasPrefix k "httpHeaderName" = true →
        ∃ n, v = Value.string n :=
      fun k v hm hp => hstr k v (List.mem_cons_of_mem _ hm) hp
    by_cases hp : HasPrefix k₀ "httpHeaderName" = true
    · obtain ⟨n, rfl⟩ := hstr k₀ v₀ (List.mem_cons_self _ _) hp
      simp only [extractLoop, hp, if_true]
      rw [ih _ _ _ hrest]
      simp [headerKeys, headerNames, deleteAll, setAllTrue, hp, List.filter]
    · simp only [extractLoop, hp]
      rw [ih _ _ _ hrest]
      cases v₀ <;> simp [headerKeys, headerNames, hp, List.filter]

/-- A value that is not a string under a header-name key makes the loop panic. -/
theorem extractLoop_panic (es : List (String × Value)) :
    ∀ (j s : GoMap Value) (h : GoMap String),
      (∃ k v, (k, v) ∈ es ∧ HasPrefix k "httpHeaderName" = true ∧ ∀ n, v ≠ Value.string n) →
      extractLoop es j s h = .error Panic.interfaceConversion := by
  induction es with
  | nil => intro j s h ⟨k, v, hm, _⟩; simp at hm
  | cons e es ih =>
    obtain ⟨k₀, v₀⟩ := e
    intro j s h ⟨k, v, hm, hp, hv⟩
    by_cases hp₀ : HasPrefix k₀ "httpHeaderName" = true
    · cases v₀ with
      | string n₀ =>
        simp only [extractLoop, hp₀, if_true]
        apply ih
        rcases List.mem_cons.mp hm with heq | hm'
        · cases heq
          exact absurd rfl (hv n₀)
        · exact ⟨k, v, hm', hp, hv⟩
      | null | bool _ | number _ => simp [extractLoop, hp₀]
    · simp only [extractLoop, hp₀]
      apply ih
      rcases List.mem_cons.mp hm with heq | hm'
      · cases heq
        exact absurd hp hp₀
      · exact ⟨k, v, hm', hp, hv⟩

theorem headersLoop_eq (hs : List (String × String)) :
    ∀ (idx : Nat) (j s : GoMap Value),
      headersLoop hs idx j s =
        (setNumbered "httpHeaderName" (hs.map Prod.fst) idx j,
         setNumbered "httpHeaderValue" (hs.map Prod.snd) idx s) := by
  induction hs with
  | nil => intro idx j s; simp [headersLoop, setNumbered]
  | cons e hs ih =>
    obtain ⟨name, value⟩ := e
    intro idx j s
    simp [headersLoop, setNumbered, ih]

theorem get_setNumbered_other (pre : String) (xs : List String) :
    ∀ (idx : Nat) (m : GoMap Value) (k : String),
      (∀ i, i < xs.length → k ≠ Sprintf_d pre (idx + i)) →
      GoMap.get (setNumbered pre xs idx m) k = GoMap.get m k := by
  induction xs with
  | nil => intro idx m k _; simp [setNumbered]
  | cons x xs ih =>
    intro idx m k hk
    simp only [setNumbered]
    rw [ih (idx + 1) _ k]
    · have h0 : Sprintf_d pre idx ≠ k := fun e => hk 0 (by simp) (by simpa using e.symm)
      exact GoMap.get_set_ne m _ h0
    · intro i hi
      have := hk (i + 1) (by simpa using hi)
      rwa [show idx + (i + 1) = idx + 1 + i by omega] at this

theorem get_setNumbered_at (pre : String) (xs : List String) :
    ∀ (idx : Nat) (m : GoMap Value) (i : Nat) (hi : i < xs.length),
      GoMap.get (setNumbered pre xs idx m) (Sprintf_d pre (idx + i))
        = some (Value.string (xs.get ⟨i, hi⟩)) := by
  induction xs with
  | nil => intro idx m i hi; simp at hi
  | cons x xs ih =>
    intro idx m i hi
    simp only [setNumbered]
    cases i with
    | zero =>
      rw [get_setNumbered_other]
      · simp [GoMap.get_set_self]
      · intro i _ e
        have := sprintf_d_injective pre e
        omega
    | succ i =>
      have := ih (idx + 1) (GoMap.set m (Sprintf_d pre idx) (Value.string x)) i
        (by simpa using hi)
      rw [show idx + (i + 1) = idx + 1 + i by omega]
      simpa using this

theorem wf_setNumbered (pre : String) (xs : List String) :
    ∀ (idx : Nat) (m : GoMap Value), GoMap.WF m → GoMap.WF (setNumbered pre xs idx m) := by
  induction xs with
  | nil => intro idx m hm; simpa [setNumbered] using hm
  | cons x xs ih =>
    intro idx m hm
    exact ih (idx + 1) _ (GoMap.wf_set hm _ _)

/-- The keys of `setNumbered`: the old ones and the numbered ones. -/
theorem hasKey_setNumbered (pre : String) (xs : List String) (idx : Nat) (m : GoMap Value)
    (k : String) :
    GoMap.HasKey (setNumbered pre xs idx m) k ↔
      GoMap.HasKey m k ∨ ∃ i, i < xs.length ∧ k = Sprintf_d pre (idx + i) := by
  by_cases h : ∃ i, i < xs.length ∧ k = Sprintf_d pre (idx + i)
  · obtain ⟨i, hi, rfl⟩ := h
    have := get_setNumbered_at pre xs idx m i hi
    simp only [GoMap.HasKey, this, Option.isSome_some, true_iff]
    exact Or.inr ⟨i, hi, rfl⟩
  · have h' : ∀ i, i < xs.length → k ≠ Sprintf_d pre (idx + i) :=
      fun i hi e => h ⟨i, hi, e⟩
    simp only [GoMap.HasKey, get_setNumbered_other pre xs idx m k h', h, or_false]

/-- What `ExtractHeadersFromJSONData` returns when it returns. -/
theorem extract_ok (P S : GoMap Value) (hP : GoMap.WF P) (hS : GoMap.WF S)
    (hstr : ∀ k v, GoMap.get P k = some v → HasPrefix k "httpHeaderName" = true →
      ∃ n, v = Value.string n) :
    ExtractHeadersFromJSONData P S = .ok
      (deleteAll P (headerKeys P),
       deleteAll S ((headerKeys P).map
         (fun k => Replace k "httpHeaderName" "httpHeaderValue" 1)),
       setAllTrue [] (headerNames P)) := by
  unfold ExtractHeadersFromJSONData
  simp only [cloneMap_eq P hP, cloneMap_eq S hS]
  exact extractLoop_ok P P S [] (fun k v hm hp => hstr k v (GoMap.get_of_mem hP hm) hp)

theorem extract_panic (P S : GoMap Value) (hP : GoMap.WF P)
    (hbad : ∃ k v, GoMap.get P k = some v ∧ HasPrefix k "httpHeaderName" = true ∧
      ∀ n, v ≠ Value.string n) :
    ExtractHeadersFromJSONData P S = .error Panic.interfaceConversion := by
  unfold ExtractHeadersFromJSONData
  simp only [cloneMap_eq P hP]
  obtain ⟨k, v, hg, hp, hv⟩ := hbad
  exact extractLoop_panic P P _ [] ⟨k, v, GoMap.mem_of_get hg, hp, hv⟩

theorem get_plain_result (P : GoMap Value) (k : String) :
    GoMap.get (deleteAll P (headerKeys P)) k =
      if HasPrefix k "httpHeaderName" = true then none else GoMap.get P k := by
  rw [get_deleteAll]
  by_cases hp : HasPrefix k "httpHeaderName" = true
  · by_cases hk : k ∈ P.map Prod.fst
    · simp [mem_headerKeys, hp, hk]
    · have : k ∉ headerKeys P := fun h => hk ((mem_headerKeys P k).mp h).2
      simp [this, hp, (GoMap.get_eq_none_iff P k).mpr hk]
  · have : k ∉ headerKeys P := fun h => hp ((mem_headerKeys P k).mp h).1
    simp [this, hp]

theorem get_secret_result_removed (P S : GoMap Value) (d : String)
    (hd : GoMap.HasKey P d) (hp : HasPrefix d "httpHeaderName" = true) :
    GoMap.get (deleteAll S ((headerKeys P).map
      (fun k => Replace k "httpHeaderName" "httpHeaderValue" 1)))
      (Replace d "httpHeaderName" "httpHeaderValue" 1) = none := by
  rw [get_deleteAll]
  have : Replace d "httpHeaderName" "httpHeaderValue" 1 ∈ (headerKeys P).map
      (fun k => Replace k "httpHeaderName" "httpHeaderValue" 1) :=
    List.mem_map.mpr ⟨d, (mem_headerKeys P d).mpr ⟨hp, (GoMap.hasKey_iff P d).mp hd⟩, rfl⟩
  simp [this]

theorem get_secret_result_kept (P S : GoMap Value) (k : String)
    (hk : ∀ d, GoMap.HasKey P d → HasPrefix d "httpHeaderName" = true →
      Replace d "httpHeaderName" "httpHeaderValue" 1 ≠ k) :
    GoMap.get (deleteAll S ((headerKeys P).map
      (fun k => Replace k "httpHeaderName" "httpHeaderValue" 1))) k = GoMap.get S k := by
  rw [get_deleteAll]
  have : k ∉ (headerKeys P).map
      (fun k => Replace k "httpHeaderName" "httpHeaderValue" 1) := by
    intro h
    obtain ⟨d, hd, rfl⟩ := List.mem_map.mp h
    have := (mem_headerKeys P d).mp hd
    exact hk d ((GoMap.hasKey_iff P d).mpr this.2) this.1 rfl
  simp [this]

/-! ## Encoding followed by decoding -/

theorem jsonDataWithHeaders_eq (P S : GoMap Value) (H : GoMap String)
    (hP : GoMap.WF P) (hS : GoMap.WF S) :
    JSONDataWithHeaders P S H =
      (setNumbered "httpHeaderName" (H.map Prod.fst) 1 P,
       setNumbered "httpHeaderValue" (H.map Prod.snd) 1 S) := by
  unfold JSONDataWithHeaders
  simp only [cloneMap_eq P hP, cloneMap_eq S hS, headersLoop_eq]

theorem not_hasPrefix_of_fresh {P : GoMap Value}
    (hfresh : ∀ e ∈ P, HasPrefix e.1 "httpHeaderName" = false) {k : String}
    (hk : GoMap.HasKey P k) : HasPrefix k "httpHeaderName" = false := by
  obtain ⟨e, he, rfl⟩ := List.mem_map.mp ((GoMap.hasKey_iff P k).mp hk)
  exact hfresh e he

/-- In an encoded plain map whose input had no header-name key, the header-name
keys are the numbered ones, each holding the name at its position. -/
theorem encoded_prefixed (P : GoMap Value) (xs : List String)
    (hfresh : ∀ e ∈ P, HasPrefix e.1 "httpHeaderName" = false) (k : String) (v : Value)
    (hg : GoMap.get (setNumbered "httpHeaderName" xs 1 P) k = some v)
    (hp : HasPrefix k "httpHeaderName" = true) :
    ∃ i, ∃ hi : i < xs.length,
      k = Sprintf_d "httpHeaderName" (1 + i) ∧ v = Value.string (xs.get ⟨i, hi⟩) := by
  by_cases h : ∃ i, i < xs.length ∧ k = Sprintf_d "httpHeaderName" (1 + i)
  · obtain ⟨i, hi, rfl⟩ := h
    rw [get_setNumbered_at "httpHeaderName" xs 1 P i hi] at hg
    exact ⟨i, hi, rfl, (Option.some.inj hg).symm⟩
  · have h' : ∀ i, i < xs.length → k ≠ Sprintf_d "httpHeaderName" (1 + i) :=
      fun i hi e => h ⟨i, hi, e⟩
    rw [get_setNumbered_other "httpHeaderName" xs 1 P k h'] at hg
    have hk : GoMap.HasKey P k := by simp [GoMap.HasKey, hg]
    rw [not_hasPrefix_of_fresh hfresh hk] at hp
    cases hp

/-- Decoding an encoded pair, read in any order: the call returns, the keys it
treats as header names are the numbered ones, and the names it finds are the
names of `H`. -/
theorem roundtrip_core (P S : GoMap Value) (H : GoMap String) (J S' : GoMap Value)
    (hP : GoMap.WF P) (hS : GoMap.WF S)
    (hfresh : ∀ e ∈ P, HasPrefix e.1 "httpHeaderName" = false)
    (hJ : J.Perm (JSONDataWithHeaders P S H).1)
    (hS' : S'.Perm (JSONDataWithHeaders P S H).2) :
    GoMap.WF J ∧ GoMap.WF S' ∧
    GoMap.Equiv J (setNumbered "httpHeaderName" (H.map Prod.fst) 1 P) ∧
    GoMap.Equiv S' (setNumbered "httpHeaderValue" (H.map Prod.snd) 1 S) ∧
    ExtractHeadersFromJSONData J S' = .ok
      (deleteAll J (headerKeys J),
       deleteAll S' ((headerKeys J).map
         (fun k => Replace k "httpHeaderName" "httpHeaderValue" 1)),
       setAllTrue [] (headerNames J)) ∧
    (∀ k, k ∈ headerKeys J ↔ ∃ i, i < H.length ∧ k = Sprintf_d "httpHeaderName" (1 + i)) ∧
    (∀ n, n ∈ headerNames J ↔ n ∈ H.map Prod.fst) := by
  rw [jsonDataWithHeaders_eq P S H hP hS] at hJ hS'
  simp only at hJ hS'
  have hwJ' := wf_setNumbered "httpHeaderName" (H.map Prod.fst) 1 P hP
  have hwS'' := wf_setNumbered "httpHeaderValue" (H.map Prod.snd) 1 S hS
  have hwJ : GoMap.WF J := (List.Perm.nodup_iff (hJ.map Prod.fst)).mpr hwJ'
  have hwS' : GoMap.WF S' := (List.Perm.nodup_iff (hS'.map Prod.fst)).mpr hwS''
  have heJ := GoMap.equiv_of_perm hwJ hJ
  have heS := GoMap.equiv_of_perm hwS' hS'
  have hstr : ∀ k v, GoMap.get J k = some v → HasPrefix k "httpHeaderName" = true →
      ∃ n, v = Value.string n := by
    intro k v hg hp
    rw [heJ k] at hg
    obtain ⟨i, hi, _, hv⟩ := encoded_prefixed P _ hfresh k v hg hp
    exact ⟨_, hv⟩
  refine ⟨hwJ, hwS', heJ, heS, extract_ok J S' hwJ hwS' hstr, ?_, ?_⟩
  · intro k
    rw [mem_headerKeys, ← GoMap.hasKey_iff]
    constructor
    · rintro ⟨hp, hk⟩
      obtain ⟨v, hv⟩ := Option.isSome_iff_exists.mp hk
      rw [heJ k] at hv
      obtain ⟨i, hi, hki, _⟩ := encoded_prefixed P _ hfresh k v hv hp
      exact ⟨i, by simpa using hi, hki⟩
    · rintro ⟨i, hi, rfl⟩
      refine ⟨hasPrefix_sprintf_d _ _, ?_⟩
      have := get_setNumbered_at "httpHeaderName" (H.map Prod.fst) 1 P i (by simpa using hi)
      simp [GoMap.HasKey, heJ _, this]
  · intro n
    rw [mem_headerNames]
    constructor
    · rintro ⟨k, hp, hm⟩
      have hg := GoMap.get_of_mem hwJ hm
      rw [heJ k] at hg
      obtain ⟨i, hi, _, hv⟩ := encoded_prefixed P _ hfresh k _ hg hp
      cases hv
      exact List.get_mem _ _ _
    · intro hn
      obtain ⟨⟨i, hi⟩, hget⟩ := List.mem_iff_get.mp hn
      refine ⟨Sprintf_d "httpHeaderName" (1 + i), hasPrefix_sprintf_d _ _, ?_⟩
      apply GoMap.mem_of_get
      rw [heJ _, get_setNumbered_at "httpHeaderName" (H.map Prod.fst) 1 P i hi, hget]

/-- If `ExtractHeadersFromJSONData` returns, every value under a header-name
key is a string and the result is the one of `extract_ok`. -/
theorem extract_ok_inv (P S : GoMap Value) (hP : GoMap.WF P) (hS : GoMap.WF S)
    (r : GoMap Value × GoMap Value × GoMap String)
    (hr : ExtractHeadersFromJSONData P S = .ok r) :
    (∀ k v, GoMap.get P k = some v → HasPrefix k "httpHeaderName" = true →
      ∃ n, v = Value.string n) ∧
    r = (deleteAll P (headerKeys P),
         deleteAll S ((headerKeys P).map
           (fun k => Replace k "httpHeaderName" "httpHeaderValue" 1)),
         setAllTrue [] (headerNames P)) := by
  have hstr : ∀ k v, GoMap.get P k = some v → HasPrefix k "httpHeaderName" = true →
      ∃ n, v = Value.string n := by
    intro k v hg hp
    by_contra hne
    have hbad : ∀ n, v ≠ Value.string n := fun n e => hne ⟨n, e⟩
    rw [extract_panic P S hP ⟨k, v, hg, hp, hbad⟩] at hr
    cases hr
  refine ⟨hstr, ?_⟩
  rw [extract_ok P S hP hS hstr] at hr
  exact (Except.ok.inj hr).symm

theorem hasKey_setAllTrue_nil (ns : List String) (n : String) :
    GoMap.HasKey (setAllTrue [] ns) n ↔ n ∈ ns := by
  unfold GoMap.HasKey
  rw [get_setAllTrue]
  by_cases h : n ∈ ns <;> simp [h, GoMap.get]

/-! ## The heap -/

namespace Heap

theorem ifaceAt_ifaceSet_self (h : Heap) (a : Nat) (k : String) (v : Value)
    (ha : a < h.ifaceMaps.length) :
    (h.ifaceSet a k v).ifaceAt a = GoMap.set (h.ifaceAt a) k v := by
  simp [ifaceSet, ifaceAt, List.getElem?_set_self ha]

theorem ifaceAt_ifaceDelete_self (h : Heap) (a : Nat) (k : String)
    (ha : a < h.ifaceMaps.length) :
    (h.ifaceDelete a k).ifaceAt a = GoMap.delete (h.ifaceAt a) k := by
  simp [ifaceDelete, ifaceAt, List.getElem?_set_self ha]

theorem stringAt_stringSet_self (h : Heap) (b : Nat) (k v : String)
    (hb : b < h.stringMaps.length) :
    (h.stringSet b k v).stringAt b = GoMap.set (h.stringAt b) k v := by
  simp [stringSet, stringAt, List.getElem?_set_self hb]

theorem modifies_refl (h : Heap) (as bs : List Nat) : Modifies h h as bs :=
  ⟨rfl, rfl, fun _ _ => rfl, fun _ _ => rfl⟩

theorem modifies_trans {h₁ h₂ h₃ : Heap} {as bs : List Nat}
    (h₁₂ : Modifies h₁ h₂ as bs) (h₂₃ : Modifies h₂ h₃ as bs) : Modifies h₁ h₃ as bs :=
  ⟨h₂₃.1.trans h₁₂.1, h₂₃.2.1.trans h₁₂.2.1,
   fun a ha => (h₂₃.2.2.1 a ha).trans (h₁₂.2.2.1 a ha),
   fun b hb => (h₂₃.2.2.2 b hb).trans (h₁₂.2.2.2 b hb)⟩

theorem modifies_ifaceSet (h : Heap) (a : Nat) (k : String) (v : Value)
    (as bs : List Nat) (ha : a ∈ as) : Modifies h (h.ifaceSet a k v) as bs := by
  refine ⟨by simp [ifaceSet], rfl, ?_, fun _ _ => rfl⟩
  intro c hc
  have hne : a ≠ c := fun e => hc (e ▸ ha)
  simp [ifaceSet, ifaceAt, List.getElem?_set_ne hne]

theorem modifies_ifaceDelete (h : Heap) (a : Nat) (k : String)
    (as bs : List Nat) (ha : a ∈ as) : Modifies h (h.ifaceDelete a k) as bs := by
  refine ⟨by simp [ifaceDelete], rfl, ?_, fun _ _ => rfl⟩
  intro c hc
  have hne : a ≠ c := fun e => hc (e ▸ ha)
  simp [ifaceDelete, ifaceAt, List.getElem?_set_ne hne]

theorem modifies_stringSet (h : Heap) (b : Nat) (k v : String)
    (as bs : List Nat) (hb : b ∈ bs) : Modifies h (h.stringSet b k v) as bs := by
  refine ⟨rfl, by simp [stringSet], fun _ _ => rfl, ?_⟩
  intro c hc
  have hne : b ≠ c := fun e => hc (e ▸ hb)
  simp [stringSet, stringAt, List.getElem?_set_ne hne]

end Heap

theorem foldl_ifaceSet (es : List (String × Value)) (c : Nat) :
    ∀ h : Heap, c < h.ifaceMaps.length →
      Heap.Modifies h (es.foldl (fun h e => h.ifaceSet c e.1 e.2) h) [c] [] ∧
      (es.foldl (fun h e => h.ifaceSet c e.1 e.2) h).ifaceAt c =
        es.foldl (fun clone e => GoMap.set clone e.1 e.2) (h.ifaceAt c) := by
  induction es with
  | nil => intro h _; exact ⟨Heap.modifies_refl h _ _, rfl⟩
  | cons e es ih =>
    intro h hc
    have hstep := Heap.modifies_ifaceSet h c e.1 e.2 [c] [] (List.mem_singleton.mpr rfl)
    obtain ⟨hm, hval⟩ := ih (h.ifaceSet c e.1 e.2) (by rw [hstep.1]; exact hc)
    refine ⟨Heap.modifies_trans hstep hm, ?_⟩
    simp only [List.foldl_cons]
    rw [hval, Heap.ifaceAt_ifaceSet_self h c e.1 e.2 hc]

/-- The clone is a new object that holds `cloneMap` of the map; the objects
that were on the heap are unchanged. -/
theorem cloneMapH_spec (h : Heap) (m : Option Nat) :
    (cloneMapH h m).2 = h.ifaceMaps.length ∧
    (cloneMapH h m).1.ifaceMaps.length = h.ifaceMaps.length + 1 ∧
    (cloneMapH h m).1.stringMaps.length = h.stringMaps.length ∧
    (∀ a, a < h.ifaceMaps.length → (cloneMapH h m).1.ifaceAt a = h.ifaceAt a) ∧
    (∀ b, (cloneMapH h m).1.stringAt b = h.stringAt b) ∧
    (cloneMapH h m).1.ifaceAt (cloneMapH h m).2 = cloneMap (h.ifaceMap m) := by
  have hlen : h.ifaceMaps.length < h.makeIface.1.ifaceMaps.length := by
    simp [Heap.makeIface]
  obtain ⟨hm, hval⟩ := foldl_ifaceSet (h.ifaceMap m) h.ifaceMaps.length h.makeIface.1 hlen
  have hnew : h.makeIface.1.ifaceAt h.ifaceMaps.length = [] := by
    simp [Heap.makeIface, Heap.ifaceAt]
  refine ⟨rfl, ?_, ?_, ?_, ?_, ?_⟩
  · exact hm.1.trans (by simp [Heap.makeIface])
  · exact hm.2.1
  · intro a ha
    have hne : a ∉ [h.ifaceMaps.length] := by
      simp only [List.mem_singleton]
      omega
    refine (hm.2.2.1 a hne).trans ?_
    simp [Heap.makeIface, Heap.ifaceAt, List.getElem?_append_left ha]
  · intro b
    exact hm.2.2.2 b (by simp)
  · exact hval.trans (by rw [hnew]; rfl)

theorem headersLoopH_spec (hs : List (String × String)) :
    ∀ (idx : Nat) (h : Heap) (j s : Nat), j ≠ s →
      j < h.ifaceMaps.length → s < h.ifaceMaps.length →
      Heap.Modifies h (headersLoopH hs idx h j s) [j, s] [] ∧
      ((headersLoopH hs idx h j s).ifaceAt j, (headersLoopH hs idx h j s).ifaceAt s) =
        headersLoop hs idx (h.ifaceAt j) (h.ifaceAt s) := by
  induction hs with
  | nil => intro idx h j s _ _ _; exact ⟨Heap.modifies_refl h _ _, rfl⟩
  | cons e hs ih =>
    obtain ⟨name, value⟩ := e
    intro idx h j s hjs hj hs'
    have m₁ := Heap.modifies_ifaceSet h j (Sprintf_d "httpHeaderName" idx)
      (Value.string name) [j, s] [] (by simp)
    have m₂ := Heap.modifies_ifaceSet
      (h.ifaceSet j (Sprintf_d "httpHeaderName" idx) (Value.string name)) s
      (Sprintf_d "httpHeaderValue" idx) (Value.string value) [j, s] [] (by simp)
    have m₁₂ := Heap.modifies_trans m₁ m₂
    obtain ⟨hm, hval⟩ := ih (idx + 1) _ j s hjs (by rw [m₁₂.1]; exact hj)
      (by rw [m₁₂.1]; exact hs')
    refine ⟨Heap.modifies_trans m₁₂ hm, ?_⟩
    simp only [headersLoopH, headersLoop]
    rw [hval]
    congr 1
    · have hne : s ≠ j := fun e => hjs e.symm
      simp only [Heap.ifaceSet, Heap.ifaceAt, List.getElem?_set_ne hne,
        List.getElem?_set_self hj]
      rfl
    · have hlen : s < (h.ifaceSet j (Sprintf_d "httpHeaderName" idx)
          (Value.string name)).ifaceMaps.length := by rw [m₁.1]; exact hs'
      rw [Heap.ifaceAt_ifaceSet_self _ s _ _ hlen]
      simp only [Heap.ifaceSet, Heap.ifaceAt, List.getElem?_set_ne hjs]

/-- The heap after the two deletions and the assignment of one turn of the loop
of `ExtractHeadersFromJSONData`. -/
theorem extract_step_heap (h : Heap) (j s hd : Nat) (k k' n : String) (hjs : j ≠ s)
    (hj : j < h.ifaceMaps.length) (hs : s < h.ifaceMaps.length)
    (hhd : hd < h.stringMaps.length) :
    Heap.Modifies h (((h.ifaceDelete j k).ifaceDelete s k').stringSet hd n "true") [j, s] [hd] ∧
    (((h.ifaceDelete j k).ifaceDelete s k').stringSet hd n "true").ifaceAt j
      = GoMap.delete (h.ifaceAt j) k ∧
    (((h.ifaceDelete j k).ifaceDelete s k').stringSet hd n "true").ifaceAt s
      = GoMap.delete (h.ifaceAt s) k' ∧
    (((h.ifaceDelete j k).ifaceDelete s k').stringSet hd n "true").stringAt hd
      = GoMap.set (h.stringAt hd) n "true" := by
  have m₁ := Heap.modifies_ifaceDelete h j k [j, s] [hd] (by simp)
  have m₂ := Heap.modifies_ifaceDelete (h.ifaceDelete j k) s k' [j, s] [hd] (by simp)
  have m₃ := Heap.modifies_stringSet ((h.ifaceDelete j k).ifaceDelete s k') hd n "true"
    [j, s] [hd] (by simp)
  have hne : s ≠ j := fun e => hjs e.symm
  refine ⟨Heap.modifies_trans (Heap.modifies_trans m₁ m₂) m₃, ?_, ?_, ?_⟩
  · simp only [Heap.stringSet, Heap.ifaceDelete, Heap.ifaceAt, List.getElem?_set_ne hne,
      List.getElem?_set_self hj]
    rfl
  · have hlen : s < (h.ifaceDelete j k).ifaceMaps.length := by rw [m₁.1]; exact hs
    have := Heap.ifaceAt_ifaceDelete_self (h.ifaceDelete j k) s k' hlen
    simp only [Heap.stringSet, Heap.ifaceAt] at this ⊢
    rw [this]
    simp only [Heap.ifaceDelete, Heap.ifaceAt, List.getElem?_set_ne hjs]
  · have hlen : hd < ((h.ifaceDelete j k).ifaceDelete s k').stringMaps.length := hhd
    rw [Heap.stringAt_stringSet_self _ hd n "true" hlen]
    rfl

/-- The loop on the heap changes the two clones and the headers map only, and
leaves in them what the loop on values computes; it panics when that one
does. -/
theorem extractLoopH_spec (es : List (String × Value)) :
    ∀ (h : Heap) (j s hd : Nat), j ≠ s →
      j < h.ifaceMaps.length → s < h.ifaceMaps.length → hd < h.stringMaps.length →
      (∀ h', extractLoopH es h j s hd = .ok h' →
        Heap.Modifies h h' [j, s] [hd] ∧
        extractLoop es (h.ifaceAt j) (h.ifaceAt s) (h.stringAt hd)
          = .ok (h'.ifaceAt j, h'.ifaceAt s, h'.stringAt hd)) ∧
      (∀ e, extractLoopH es h j s hd = .error e →
        extractLoop es (h.ifaceAt j) (h.ifaceAt s) (h.stringAt hd) = .error e) := by
  induction es with
  | nil =>
    intro h j s hd _ _ _ _
    refine ⟨?_, ?_⟩
    · intro h' hr
      simp only [extractLoopH, Except.ok.injEq] at hr
      subst hr
      exact ⟨Heap.modifies_refl h _ _, rfl⟩
    · intro e hr
      simp [extractLoopH] at hr
  | cons e es ih =>
    obtain ⟨k, v⟩ := e
    intro h j s hd hjs hj hs hhd
    by_cases hp : HasPrefix k "httpHeaderName" = true
    · cases v with
      | string n =>
        obtain ⟨hm, e₁, e₂, e₃⟩ := extract_step_heap h j s hd k
          (Replace k "httpHeaderName" "httpHeaderValue" 1) n hjs hj hs hhd
        obtain ⟨ihok, iherr⟩ := ih _ j s hd hjs (by rw [hm.1]; exact hj)
          (by rw [hm.1]; exact hs) (by rw [hm.2.1]; exact hhd)
        rw [e₁, e₂, e₃] at ihok iherr
        simp only [extractLoopH, extractLoop, hp, if_true]
        exact ⟨fun h' hr => ⟨Heap.modifies_trans hm (ihok h' hr).1, (ihok h' hr).2⟩, iherr⟩
      | null | bool _ | number _ =>
        simp only [extractLoopH, extractLoop, hp, if_true]
        exact ⟨fun h' hr => (by cases hr), fun e hr => hr⟩
    · simp only [extractLoopH, extractLoop, hp]
      exact ih h j s hd hjs hj hs hhd

theorem ifaceMap_of_frame {h h' : Heap} {m : Option Nat} (hm : h.ValidIface m)
    (hframe : ∀ a, a < h.ifaceMaps.length → h'.ifaceAt a = h.ifaceAt a) :
    h'.ifaceMap m = h.ifaceMap m := by
  cases m with
  | none => rfl
  | some a => exact hframe a hm

theorem stringMap_of_frame {h h' : Heap} {m : Option Nat} (hm : h.ValidString m)
    (hframe : ∀ b, b < h.stringMaps.length → h'.stringAt b = h.stringAt b) :
    h'.stringMap m = h.stringMap m := by
  cases m with
  | none => rfl
  | some b => exact hframe b hm

/-- `JSONDataWithHeaders` on the heap: the objects that were on the heap are
unchanged, the returned maps are new objects, and they hold what
`JSONDataWithHeaders` computes from the entries of the arguments. -/
theorem jsonDataWithHeadersH_spec (h : Heap) (P S H : Option Nat)
    (hS : h.ValidIface S) (hH : h.ValidString H) :
    (∀ a, a < h.ifaceMaps.length →
      (JSONDataWithHeadersH h P S H).1.ifaceAt a = h.ifaceAt a) ∧
    (∀ b, b < h.stringMaps.length →
      (JSONDataWithHeadersH h P S H).1.stringAt b = h.stringAt b) ∧
    (JSONDataWithHeadersH h P S H).2.1 = h.ifaceMaps.length ∧
    (JSONDataWithHeadersH h P S H).2.2 = h.ifaceMaps.length + 1 ∧
    ((JSONDataWithHeadersH h P S H).1.ifaceAt (JSONDataWithHeadersH h P S H).2.1,
     (JSONDataWithHeadersH h P S H).1.ifaceAt (JSONDataWithHeadersH h P S H).2.2) =
      JSONDataWithHeaders (h.ifaceMap P) (h.ifaceMap S) (h.stringMap H) := by
  obtain ⟨a₁, l₁, sl₁, f₁, g₁, v₁⟩ := cloneMapH_spec h P
  obtain ⟨a₂, l₂, sl₂, f₂, g₂, v₂⟩ := cloneMapH_spec (cloneMapH h P).1 S
  have hS₁ : (cloneMapH h P).1.ifaceMap S = h.ifaceMap S := ifaceMap_of_frame hS f₁
  have hH₂ : (cloneMapH (cloneMapH h P).1 S).1.stringMap H = h.stringMap H :=
    stringMap_of_frame hH (fun b _ => (g₂ b).trans (g₁ b))
  have hne : (cloneMapH h P).2 ≠ (cloneMapH (cloneMapH h P).1 S).2 := by
    rw [a₁, a₂, l₁]
    omega
  have hj : (cloneMapH h P).2 < (cloneMapH (cloneMapH h P).1 S).1.ifaceMaps.length := by
    rw [a₁, l₂, l₁]
    omega
  have hs : (cloneMapH (cloneMapH h P).1 S).2
      < (cloneMapH (cloneMapH h P).1 S).1.ifaceMaps.length := by
    rw [a₂, l₂]
    omega
  obtain ⟨hm, hval⟩ := headersLoopH_spec ((cloneMapH (cloneMapH h P).1 S).1.stringMap H) 1
    (cloneMapH (cloneMapH h P).1 S).1 _ _ hne hj hs
  have hold : (cloneMapH (cloneMapH h P).1 S).1.ifaceAt (cloneMapH h P).2
      = cloneMap (h.ifaceMap P) := by
    rw [f₂ _ (by rw [a₁, l₁]; omega), v₁]
  refine ⟨?_, ?_, a₁, by rw [← l₁]; exact a₂, ?_⟩
  · intro a ha
    have hnot : a ∉ [(cloneMapH h P).2, (cloneMapH (cloneMapH h P).1 S).2] := by
      simp only [List.mem_cons, List.mem_singleton, List.not_mem_nil, or_false, a₁, a₂, l₁]
      omega
    exact (hm.2.2.1 a hnot).trans ((f₂ a (by rw [l₁]; omega)).trans (f₁ a ha))
  · intro b _
    exact (hm.2.2.2 b (by simp)).trans ((g₂ b).trans (g₁ b))
  · refine hval.trans ?_
    rw [hold, v₂, hS₁, hH₂]
    rfl

/-- `ExtractHeadersFromJSONData` on the heap, when it returns: the objects that
were on the heap are unchanged, the returned maps are new objects, and they
hold what `ExtractHeadersFromJSONData` computes from the entries of the
arguments. -/
theorem extractHeadersH_spec (h : Heap) (P S : Option Nat) (hS : h.ValidIface S)
    (h' : Heap) (plain secret headers : Nat)
    (hr : ExtractHeadersFromJSONDataH h P S = .ok (h', plain, secret, headers)) :
    (∀ a, a < h.ifaceMaps.length → h'.ifaceAt a = h.ifaceAt a) ∧
    (∀ b, b < h.stringMaps.length → h'.stringAt b = h.stringAt b) ∧
    plain = h.ifaceMaps.length ∧ secret = h.ifaceMaps.length + 1 ∧
    headers = h.stringMaps.length ∧
    ExtractHeadersFromJSONData (h.ifaceMap P) (h.ifaceMap S)
      = .ok (h'.ifaceAt plain, h'.ifaceAt secret, h'.stringAt headers) := by
  obtain ⟨a₁, l₁, sl₁, f₁, g₁, v₁⟩ := cloneMapH_spec h P
  obtain ⟨a₂, l₂, sl₂, f₂, g₂, v₂⟩ := cloneMapH_spec (cloneMapH h P).1 S
  have hS₁ : (cloneMapH h P).1.ifaceMap S = h.ifaceMap S := ifaceMap_of_frame hS f₁
  generalize hc₁ : cloneMapH h P = c₁ at *
  generalize hc₂ : cloneMapH c₁.1 S = c₂ at *
  have hmk : ∀ a, c₂.1.makeString.1.ifaceAt a = c₂.1.ifaceAt a := fun _ => rfl
  have hmkl : c₂.1.makeString.1.ifaceMaps.length = c₂.1.ifaceMaps.length := rfl
  have hmks : c₂.1.makeString.1.stringMaps.length = c₂.1.stringMaps.length + 1 := by
    simp [Heap.makeString]
  have hmk2 : c₂.1.makeString.2 = c₂.1.stringMaps.length := rfl
  have hmkold : ∀ b, b < c₂.1.stringMaps.length →
      c₂.1.makeString.1.stringAt b = c₂.1.stringAt b := by
    intro b hb
    simp [Heap.makeString, Heap.stringAt, List.getElem?_append_left hb]
  have hmknew : c₂.1.makeString.1.stringAt c₂.1.makeString.2 = [] := by
    simp [Heap.makeString, Heap.stringAt]
  have hne : c₁.2 ≠ c₂.2 := by rw [a₁, a₂, l₁]; omega
  have hj : c₁.2 < c₂.1.makeString.1.ifaceMaps.length := by rw [hmkl, a₁, l₂, l₁]; omega
  have hs : c₂.2 < c₂.1.makeString.1.ifaceMaps.length := by rw [hmkl, a₂, l₂]; omega
  have hhd : c₂.1.makeString.2 < c₂.1.makeString.1.stringMaps.length := by
    rw [hmks, hmk2]; omega
  obtain ⟨hok, _⟩ := extractLoopH_spec (c₂.1.makeString.1.ifaceAt c₁.2) c₂.1.makeString.1
    c₁.2 c₂.2 c₂.1.makeString.2 hne hj hs hhd
  have hold : c₂.1.makeString.1.ifaceAt c₁.2 = cloneMap (h.ifaceMap P) := by
    rw [hmk, f₂ _ (by rw [a₁, l₁]; omega), v₁]
  have hsec : c₂.1.makeString.1.ifaceAt c₂.2 = cloneMap (h.ifaceMap S) := by
    rw [hmk, v₂, hS₁]
  simp only [ExtractHeadersFromJSONDataH, hc₁, hc₂] at hr
  cases hloop : extractLoopH (c₂.1.makeString.1.ifaceAt c₁.2) c₂.1.makeString.1
      c₁.2 c₂.2 c₂.1.makeString.2 with
  | error e => rw [hloop] at hr; cases hr
  | ok hfin =>
    rw [hloop] at hr
    simp only [Except.ok.injEq, Prod.mk.injEq] at hr
    obtain ⟨rfl, rfl, rfl, rfl⟩ := hr
    obtain ⟨hm, hval⟩ := hok hfin hloop
    refine ⟨?_, ?_, a₁, by rw [← l₁]; exact a₂, by rw [hmk2, sl₂, sl₁], ?_⟩
    · intro a ha
      have hnot : a ∉ [c₁.2, c₂.2] := by
        simp only [List.mem_cons, List.mem_singleton, List.not_mem_nil, or_false, a₁, a₂, l₁]
        omega
      exact (hm.2.2.1 a hnot).trans ((hmk a).trans ((f₂ a (by rw [l₁]; omega)).trans (f₁ a ha)))
    · intro b hb
      have hnot : b ∉ [c₂.1.makeString.2] := by
        simp only [List.mem_singleton, hmk2, sl₂, sl₁]
        omega
      exact (hm.2.2.2 b hnot).trans
        ((hmkold b (by rw [sl₂, sl₁]; exact hb)).trans ((g₂ b).trans (g₁ b)))
    · rw [hold, hsec, hmknew] at hval
      exact hval

/-! ## The claims -/

/-- C1, as stated, fails: a key that begins with `httpHeaderName` without being
of the form `httpHeaderName<i>` is decoded as a header.  With
`P = {"httpHeaderNameX": "bogus"}`, `S = {}` and `H = {}` the hypotheses of the
claim hold, and the decoded headers have the key `bogus`, which `H` has not. -/
theorem C1_counterexample :
    GoMap.WF [("httpHeaderNameX", Value.string "bogus")] ∧
    (∀ e ∈ [("httpHeaderNameX", Value.string "bogus")],
      isNumberedKey "httpHeaderName" e.1 = false) ∧
    (∀ e ∈ ([] : GoMap Value), isNumberedKey "httpHeaderValue" e.1 = false) ∧
    ExtractHeadersFromJSONData
      (JSONDataWithHeaders [("httpHeaderNameX", Value.string "bogus")] [] []).1
      (JSONDataWithHeaders [("httpHeaderNameX", Value.string "bogus")] [] []).2
      = .ok ([], [], [("bogus", "true")]) ∧
    GoMap.HasKey [("bogus", "true")] "bogus" ∧
    ¬ GoMap.HasKey ([] : GoMap String) "bogus" := by
  refine ⟨by decide, by decide, by decide, by rfl, by decide, by decide⟩

/-- C1, amended: when `P` has no key that begins with `httpHeaderName` (and `S`
no key of the form `httpHeaderValue<i>`), decoding the two maps returned by
`JSONDataWithHeaders P S H`, read in any iteration order, returns, and the
returned headers have exactly the keys of `H`; this for every `H` in every
iteration order. -/
theorem C1_roundtrip_header_names (P S : GoMap Value) (H : GoMap String) (J S' : GoMap Value)
    (hP : GoMap.WF P) (hS : GoMap.WF S) (_hH : GoMap.WF H)
    (hfresh : ∀ e ∈ P, HasPrefix e.1 "httpHeaderName" = false)
    (_hfreshS : ∀ e ∈ S, isNumberedKey "httpHeaderValue" e.1 = false)
    (hJ : J.Perm (JSONDataWithHeaders P S H).1)
    (hS' : S'.Perm (JSONDataWithHeaders P S H).2) :
    ∃ plain secret headers,
      ExtractHeadersFromJSONData J S' = .ok (plain, secret, headers) ∧
      ∀ name, GoMap.HasKey headers name ↔ GoMap.HasKey H name := by
  obtain ⟨_, _, _, _, hok, _, hnames⟩ := roundtrip_core P S H J S' hP hS hfresh hJ hS'
  refine ⟨_, _, _, hok, ?_⟩
  intro name
  rw [hasKey_setAllTrue_nil, hnames, GoMap.hasKey_iff]

/-- C1, amended, at `P = {"foo": "bar"}`, `S = {"baz": "qux"}` and
`H = {"X-Scope-OrgID": "1"}`. -/
theorem C1_roundtrip_header_names_witness :
    ∃ plain secret headers,
      ExtractHeadersFromJSONData
        (JSONDataWithHeaders [("foo", Value.string "bar")] [("baz", Value.string "qux")]
          [("X-Scope-OrgID", "1")]).1
        (JSONDataWithHeaders [("foo", Value.string "bar")] [("baz", Value.string "qux")]
          [("X-Scope-OrgID", "1")]).2 = .ok (plain, secret, headers) ∧
      ∀ name, GoMap.HasKey headers name ↔
        GoMap.HasKey [("X-Scope-OrgID", "1")] name :=
  C1_roundtrip_header_names [("foo", Value.string "bar")] [("baz", Value.string "qux")]
    [("X-Scope-OrgID", "1")] _ _ (by decide) (by decide) (by decide) (by decide) (by decide)
    (List.Perm.refl _) (List.Perm.refl _)

/-- C2, as stated, fails: decoding removes every key that begins with
`httpHeaderName`, not only those of the form `httpHeaderName<i>`.  With
`P = {"httpHeaderNameX": "v"}` and `S = {"httpHeaderValueX": true}` the call
returns, neither key is of the numbered form, and both keys are removed. -/
theorem C2_counterexample :
    ExtractHeadersFromJSONData [("httpHeaderNameX", Value.string "v")]
      [("httpHeaderValueX", Value.bool true)] = .ok ([], [], [("v", "true")]) ∧
    isNumberedKey "httpHeaderName" "httpHeaderNameX" = false ∧
    GoMap.get [("httpHeaderNameX", Value.string "v")] "httpHeaderNameX"
      = some (Value.string "v") ∧
    GoMap.get ([] : GoMap Value) "httpHeaderNameX" = none ∧
    isNumberedKey "httpHeaderValue" "httpHeaderValueX" = false ∧
    GoMap.get [("httpHeaderValueX", Value.bool true)] "httpHeaderValueX"
      = some (Value.bool true) ∧
    GoMap.get ([] : GoMap Value) "httpHeaderValueX" = none := by
  refine ⟨by rfl, by decide, by decide, by decide, by decide, by decide, by decide⟩

/-- C2, amended: when `ExtractHeadersFromJSONData P S` returns, the returned
plain map is `P` without the keys that begin with `httpHeaderName`, and the
returned secret map is `S` without the keys `httpHeaderValue<t>` for precisely
those suffixes `t` for which `httpHeaderName<t>` is a key of `P`; every other
key keeps its value and no key is added. -/
theorem C2_extract_frame (P S : GoMap Value) (hP : GoMap.WF P) (hS : GoMap.WF S)
    (plain secret : GoMap Value) (headers : GoMap String)
    (hr : ExtractHeadersFromJSONData P S = .ok (plain, secret, headers)) :
    (∀ k, GoMap.get plain k =
      if HasPrefix k "httpHeaderName" = true then none else GoMap.get P k) ∧
    (∀ t : String, GoMap.HasKey P ("httpHeaderName" ++ t) →
      GoMap.get secret ("httpHeaderValue" ++ t) = none) ∧
    (∀ k, (∀ t : String, GoMap.HasKey P ("httpHeaderName" ++ t) →
        k ≠ "httpHeaderValue" ++ t) →
      GoMap.get secret k = GoMap.get S k) ∧
    (∀ k, GoMap.HasKey secret k → GoMap.HasKey S k) := by
  obtain ⟨_, hres⟩ := extract_ok_inv P S hP hS _ hr
  simp only [Prod.mk.injEq] at hres
  obtain ⟨rfl, rfl, rfl⟩ := hres
  have hkept : ∀ k, (∀ t : String, GoMap.HasKey P ("httpHeaderName" ++ t) →
        k ≠ "httpHeaderValue" ++ t) →
      GoMap.get (deleteAll S ((headerKeys P).map
        (fun k => Replace k "httpHeaderName" "httpHeaderValue" 1))) k = GoMap.get S k := by
    intro k hk
    apply get_secret_result_kept
    intro d hd hp e
    obtain ⟨t, rfl⟩ := (hasPrefix_iff d "httpHeaderName").mp hp
    rw [replace_leading "httpHeaderName" "httpHeaderValue" t (by decide)] at e
    exact hk t hd e.symm
  refine ⟨get_plain_result P, ?_, hkept, ?_⟩
  · intro t ht
    have := get_secret_result_removed P S ("httpHeaderName" ++ t) ht
      (hasPrefix_append _ _)
    rwa [replace_leading "httpHeaderName" "httpHeaderValue" t (by decide)] at this
  · intro k hk
    unfold GoMap.HasKey at hk ⊢
    rw [get_deleteAll] at hk
    split_ifs at hk with h
    · simp at hk
    · exact hk

/-- C2, amended, at the decoding scenario of the specification. -/
theorem C2_extract_frame_witness :
    (∀ k, GoMap.get [("foo", Value.string "bar")] k =
      if HasPrefix k "httpHeaderName" = true then none
      else GoMap.get
        [("httpHeaderName1", Value.string "X-Scope-OrgID"), ("foo", Value.string "bar")] k) ∧
    (∀ t : String, GoMap.HasKey
        [("httpHeaderName1", Value.string "X-Scope-OrgID"), ("foo", Value.string "bar")]
        ("httpHeaderName" ++ t) →
      GoMap.get [("baz", Value.string "qux")] ("httpHeaderValue" ++ t) = none) ∧
    (∀ k, (∀ t : String, GoMap.HasKey
        [("httpHeaderName1", Value.string "X-Scope-OrgID"), ("foo", Value.string "bar")]
        ("httpHeaderName" ++ t) → k ≠ "httpHeaderValue" ++ t) →
      GoMap.get [("baz", Value.string "qux")] k =
        GoMap.get [("httpHeaderValue1", Value.string "set"), ("baz", Value.string "qux")] k) ∧
    (∀ k, GoMap.HasKey [("baz", Value.string "qux")] k →
      GoMap.HasKey [("httpHeaderValue1", Value.string "set"), ("baz", Value.string "qux")] k) :=
  C2_extract_frame
    [("httpHeaderName1", Value.string "X-Scope-OrgID"), ("foo", Value.string "bar")]
    [("httpHeaderValue1", Value.string "set"), ("baz", Value.string "qux")]
    (by decide) (by decide) [("foo", Value.string "bar")] [("baz", Value.string "qux")]
    [("X-Scope-OrgID", "true")] (by rfl)

/-- C3, as stated, fails: a key `httpHeaderName<i>` that is already in `P` is
overwritten when the call numbers a header `i`.  With
`P = {"httpHeaderName1": "old"}` and `H = {"X": "1"}` the returned plain map
holds `X` under `httpHeaderName1`. -/
theorem C3_counterexample :
    JSONDataWithHeaders [("httpHeaderName1", Value.string "old")] [] [("X", "1")] =
      ([("httpHeaderName1", Value.string "X")], [("httpHeaderValue1", Value.string "1")]) ∧
    GoMap.get [("httpHeaderName1", Value.string "old")] "httpHeaderName1"
      = some (Value.string "old") ∧
    GoMap.get (JSONDataWithHeaders [("httpHeaderName1", Value.string "old")] []
      [("X", "1")]).1 "httpHeaderName1" ≠ some (Value.string "old") := by
  refine ⟨by decide, by decide, by decide⟩

/-- C3, amended: for `H` with `n` entries, in any iteration order, every key of
`P` is a key of the returned plain map, and has its value `P[k]` there unless
it is one of `httpHeaderName1`, ..., `httpHeaderName<n>`; every key of `S` is a
key of the returned secret map, and has its value `S[k]` there unless it is one
of `httpHeaderValue1`, ..., `httpHeaderValue<n>`. -/
theorem C3_encode_frame (P S : GoMap Value) (H : GoMap String)
    (hP : GoMap.WF P) (hS : GoMap.WF S) :
    (∀ k, GoMap.HasKey P k → GoMap.HasKey (JSONDataWithHeaders P S H).1 k) ∧
    (∀ k v, GoMap.get P k = some v →
      (∀ i, 1 ≤ i → i ≤ H.length → k ≠ Sprintf_d "httpHeaderName" i) →
      GoMap.get (JSONDataWithHeaders P S H).1 k = some v) ∧
    (∀ k, GoMap.HasKey S k → GoMap.HasKey (JSONDataWithHeaders P S H).2 k) ∧
    (∀ k v, GoMap.get S k = some v →
      (∀ i, 1 ≤ i → i ≤ H.length → k ≠ Sprintf_d "httpHeaderValue" i) →
      GoMap.get (JSONDataWithHeaders P S H).2 k = some v) := by
  rw [jsonDataWithHeaders_eq P S H hP hS]
  refine ⟨?_, ?_, ?_, ?_⟩
  · intro k hk
    exact (hasKey_setNumbered _ _ _ _ _).mpr (Or.inl hk)
  · intro k v hg hk
    rw [get_setNumbered_other _ _ _ _ _ ?_, hg]
    intro i hi
    exact hk (1 + i) (by omega) (by simp at hi; omega)
  · intro k hk
    exact (hasKey_setNumbered _ _ _ _ _).mpr (Or.inl hk)
  · intro k v hg hk
    rw [get_setNumbered_other _ _ _ _ _ ?_, hg]
    intro i hi
    exact hk (1 + i) (by omega) (by simp at hi; omega)

/-- C3, amended, at `P = {"httpHeaderName1": "old", "foo": "bar"}`, `S = {}` and
`H = {"X": "1"}`. -/
theorem C3_encode_frame_witness :
    GoMap.get (JSONDataWithHeaders
      [("httpHeaderName1", Value.string "old"), ("foo", Value.string "bar")] []
      [("X", "1")]).1 "foo" = some (Value.string "bar") :=
  (C3_encode_frame [("httpHeaderName1", Value.string "old"), ("foo", Value.string "bar")] []
    [("X", "1")] (by decide) (by decide)).2.1 "foo" (Value.string "bar") (by decide)
    (by
      intro i _ hi
      have h1 : i = 1 := by simp at hi; omega
      subst h1
      decide)

theorem mem_headerNames_of_perm {P P' : GoMap Value} (h : P'.Perm P) (n : String) :
    n ∈ headerNames P' ↔ n ∈ headerNames P := by
  simp only [mem_headerNames]
  constructor
  · rintro ⟨k, hk, hm⟩
    exact ⟨k, hk, h.mem_iff.mp hm⟩
  · rintro ⟨k, hk, hm⟩
    exact ⟨k, hk, h.mem_iff.mpr hm⟩

/-- C4: if `ExtractHeadersFromJSONData` returns for the plain map `P` with a
secret map `S1`, it returns for `P`, read in any iteration order `P'`, with any
other secret map `S2`, the two headers maps are equal, and every value in the
headers map is the string `true`. -/
theorem C4_headers_independent_of_secrets (P P' S1 S2 : GoMap Value)
    (hP : GoMap.WF P) (hS1 : GoMap.WF S1) (hS2 : GoMap.WF S2) (hperm : P'.Perm P)
    (plain1 secret1 : GoMap Value) (headers1 : GoMap String)
    (hr : ExtractHeadersFromJSONData P S1 = .ok (plain1, secret1, headers1)) :
    ∃ plain2 secret2 headers2,
      ExtractHeadersFromJSONData P' S2 = .ok (plain2, secret2, headers2) ∧
      GoMap.Equiv headers1 headers2 ∧
      ∀ name value, GoMap.get headers1 name = some value → value = "true" := by
  obtain ⟨hstr, hres⟩ := extract_ok_inv P S1 hP hS1 _ hr
  simp only [Prod.mk.injEq] at hres
  obtain ⟨rfl, rfl, rfl⟩ := hres
  have hP' : GoMap.WF P' := (List.Perm.nodup_iff (hperm.map Prod.fst)).mpr hP
  have heq := GoMap.equiv_of_perm hP' hperm
  have hstr' : ∀ k v, GoMap.get P' k = some v → HasPrefix k "httpHeaderName" = true →
      ∃ n, v = Value.string n := fun k v hg hp => hstr k v (by rw [← heq k]; exact hg) hp
  refine ⟨_, _, _, extract_ok P' S2 hP' hS2 hstr', ?_, ?_⟩
  · intro n
    rw [get_setAllTrue, get_setAllTrue]
    by_cases h : n ∈ headerNames P
    · simp [h, (mem_headerNames_of_perm hperm n).mpr h]
    · have h' : n ∉ headerNames P' := fun h' => h ((mem_headerNames_of_perm hperm n).mp h')
      simp [h, h']
  · intro name value hg
    rw [get_setAllTrue] at hg
    split_ifs at hg
    · exact (Option.some.inj hg).symm
    · simp [GoMap.get] at hg

/-- C4 at the decoding scenario of the specification, read in the other order
and with the secret map `{"httpHeaderValue1": false}`. -/
theorem C4_headers_independent_of_secrets_witness :
    ∃ plain2 secret2 headers2,
      ExtractHeadersFromJSONData
        [("foo", Value.string "bar"), ("httpHeaderName1", Value.string "X-Scope-OrgID")]
        [("httpHeaderValue1", Value.bool false)] = .ok (plain2, secret2, headers2) ∧
      GoMap.Equiv [("X-Scope-OrgID", "true")] headers2 ∧
      ∀ name value, GoMap.get [("X-Scope-OrgID", "true")] name = some value →
        value = "true" :=
  C4_headers_independent_of_secrets
    [("httpHeaderName1", Value.string "X-Scope-OrgID"), ("foo", Value.string "bar")]
    [("foo", Value.string "bar"), ("httpHeaderName1", Value.string "X-Scope-OrgID")]
    [("httpHeaderValue1", Value.string "set"), ("baz", Value.string "qux")]
    [("httpHeaderValue1", Value.bool false)]
    (by decide) (by decide) (by decide) (List.Perm.swap _ _ _)
    [("foo", Value.string "bar")] [("baz", Value.string "qux")]
    [("X-Scope-OrgID", "true")] (by rfl)

/-- C6: for a header map `H` with `n` entries, in any iteration order, and empty
input maps, the two returned lists are maps, the returned plain map has exactly
the keys `httpHeaderName1`, ..., `httpHeaderName<n>`, the returned secret map
exactly the keys `httpHeaderValue1`, ..., `httpHeaderValue<n>`; under `httpHeaderName<i>` there
is a name of `H` and under `httpHeaderValue<i>` the value `H` has for that
name; distinct numbers hold distinct names and every name of `H` is held by
some number.  The scenario of the specification is the last conjunct. -/
theorem C6_encode_numbering (H : GoMap String) (hH : GoMap.WF H) :
    GoMap.WF (JSONDataWithHeaders [] [] H).1 ∧
    GoMap.WF (JSONDataWithHeaders [] [] H).2 ∧
    (∀ k, GoMap.HasKey (JSONDataWithHeaders [] [] H).1 k ↔
      ∃ i, 1 ≤ i ∧ i ≤ H.length ∧ k = Sprintf_d "httpHeaderName" i) ∧
    (∀ k, GoMap.HasKey (JSONDataWithHeaders [] [] H).2 k ↔
      ∃ i, 1 ≤ i ∧ i ≤ H.length ∧ k = Sprintf_d "httpHeaderValue" i) ∧
    (∀ i, 1 ≤ i → i ≤ H.length → ∃ name value,
      GoMap.get (JSONDataWithHeaders [] [] H).1 (Sprintf_d "httpHeaderName" i)
        = some (Value.string name) ∧
      GoMap.get H name = some value ∧
      GoMap.get (JSONDataWithHeaders [] [] H).2 (Sprintf_d "httpHeaderValue" i)
        = some (Value.string value)) ∧
    (∀ i j name, 1 ≤ i → i ≤ H.length → 1 ≤ j → j ≤ H.length →
      GoMap.get (JSONDataWithHeaders [] [] H).1 (Sprintf_d "httpHeaderName" i)
        = some (Value.string name) →
      GoMap.get (JSONDataWithHeaders [] [] H).1 (Sprintf_d "httpHeaderName" j)
        = some (Value.string name) → i = j) ∧
    (∀ name, GoMap.HasKey H name → ∃ i, 1 ≤ i ∧ i ≤ H.length ∧
      GoMap.get (JSONDataWithHeaders [] [] H).1 (Sprintf_d "httpHeaderName" i)
        = some (Value.string name)) ∧
    JSONDataWithHeaders [] [] [("X-Scope-OrgID", "1")] =
      ([("httpHeaderName1", Value.string "X-Scope-OrgID")],
       [("httpHeaderValue1", Value.string "1")]) := by
  rw [jsonDataWithHeaders_eq [] [] H (by decide) (by decide)]
  have hkeys : ∀ (pre : String) (xs : List String) (k : String), xs.length = H.length →
      (GoMap.HasKey (setNumbered pre xs 1 []) k ↔
        ∃ i, 1 ≤ i ∧ i ≤ H.length ∧ k = Sprintf_d pre i) := by
    intro pre xs k hlen
    rw [hasKey_setNumbered]
    constructor
    · rintro (h | ⟨i, hi, rfl⟩)
      · simp [GoMap.HasKey, GoMap.get] at h
      · exact ⟨1 + i, by omega, by omega, rfl⟩
    · rintro ⟨i, h1, h2, rfl⟩
      exact Or.inr ⟨i - 1, by omega, by rw [show 1 + (i - 1) = i by omega]⟩
  have hat : ∀ i, 1 ≤ i → ∀ hi : i - 1 < H.length,
      GoMap.get (setNumbered "httpHeaderName" (H.map Prod.fst) 1 [])
        (Sprintf_d "httpHeaderName" i) = some (Value.string (List.get H ⟨i - 1, hi⟩).1) := by
    intro i h1 hi
    have := get_setNumbered_at "httpHeaderName" (H.map Prod.fst) 1 [] (i - 1)
      (by simpa using hi)
    rw [show 1 + (i - 1) = i by omega] at this
    simpa using this
  have hatv : ∀ i, 1 ≤ i → ∀ hi : i - 1 < H.length,
      GoMap.get (setNumbered "httpHeaderValue" (H.map Prod.snd) 1 [])
        (Sprintf_d "httpHeaderValue" i) = some (Value.string (List.get H ⟨i - 1, hi⟩).2) := by
    intro i h1 hi
    have := get_setNumbered_at "httpHeaderValue" (H.map Prod.snd) 1 [] (i - 1)
      (by simpa using hi)
    rw [show 1 + (i - 1) = i by omega] at this
    simpa using this
  refine ⟨wf_setNumbered _ _ _ _ List.nodup_nil, wf_setNumbered _ _ _ _ List.nodup_nil,
    fun k => hkeys _ _ k (by simp), fun k => hkeys _ _ k (by simp), ?_, ?_, ?_, by decide⟩
  · intro i h1 h2
    have hi : i - 1 < H.length := by omega
    exact ⟨(List.get H ⟨i - 1, hi⟩).1, (List.get H ⟨i - 1, hi⟩).2, hat i h1 hi,
      GoMap.get_of_mem hH (List.get_mem _ _ _), hatv i h1 hi⟩
  · intro i j name hi1 hi2 hj1 hj2 hgi hgj
    have hi : i - 1 < H.length := by omega
    have hj : j - 1 < H.length := by omega
    rw [hat i hi1 hi] at hgi
    rw [hat j hj1 hj] at hgj
    have e1 : (List.get H ⟨i - 1, hi⟩).1 = name := by simpa using hgi
    have e2 : (List.get H ⟨j - 1, hj⟩).1 = name := by simpa using hgj
    have hinj := (List.nodup_iff_injective_get.mp hH)
    have : (⟨i - 1, by simpa using hi⟩ : Fin (H.map Prod.fst).length)
        = ⟨j - 1, by simpa using hj⟩ := by
      apply hinj
      simp only [List.get_eq_getElem, List.getElem_map] at e1 e2 ⊢
      rw [e1, e2]
    have := congrArg Fin.val this
    simp only at this
    omega
  · intro name hname
    obtain ⟨e, he, rfl⟩ := List.mem_map.mp ((GoMap.hasKey_iff H name).mp hname)
    obtain ⟨⟨i, hi⟩, hget⟩ := List.mem_iff_get.mp he
    refine ⟨i + 1, by omega, by omega, ?_⟩
    rw [hat (i + 1) (by omega) (by simpa using hi)]
    simp only [Nat.add_sub_cancel, hget]

/-- C6 at `H = {"Authorization": "token", "X-Scope-OrgID": "1"}`. -/
theorem C6_encode_numbering_witness :
    GoMap.HasKey
        (JSONDataWithHeaders [] [] [("Authorization", "token"), ("X-Scope-OrgID", "1")]).1
        "httpHeaderName2" ↔
      ∃ i, 1 ≤ i ∧ i ≤ 2 ∧ "httpHeaderName2" = Sprintf_d "httpHeaderName" i :=
  (C6_encode_numbering [("Authorization", "token"), ("X-Scope-OrgID", "1")]
    (by decide)).2.2.1 "httpHeaderName2"

theorem isString_iff (v : Value) : v.isString = true ↔ ∃ n, v = Value.string n := by
  cases v <;> simp [Value.isString]

theorem strings_of_all {P : GoMap Value}
    (hstr : ∀ e ∈ P, HasPrefix e.1 "httpHeaderName" = true → e.2.isString = true) :
    ∀ k v, GoMap.get P k = some v → HasPrefix k "httpHeaderName" = true →
      ∃ n, v = Value.string n :=
  fun k v hg hp => (isString_iff v).mp (hstr (k, v) (GoMap.mem_of_get hg) hp)

/-- C7: a value that is not a string under a key `httpHeaderName<t>`, for any
suffix `t` and so for every number, makes `ExtractHeadersFromJSONData` panic,
whatever the secret map and the iteration order; and when every value under a
key that begins with `httpHeaderName` is a string, the call returns. -/
theorem C7_panic_on_non_string_name (P S : GoMap Value)
    (hP : GoMap.WF P) (hS : GoMap.WF S) :
    (∀ (t : String) (v : Value), GoMap.get P ("httpHeaderName" ++ t) = some v →
      v.isString = false →
      ExtractHeadersFromJSONData P S = .error Panic.interfaceConversion) ∧
    ((∀ e ∈ P, HasPrefix e.1 "httpHeaderName" = true → e.2.isString = true) →
      ∃ plain secret headers,
        ExtractHeadersFromJSONData P S = .ok (plain, secret, headers)) := by
  constructor
  · intro t v hg hv
    apply extract_panic P S hP
    refine ⟨_, v, hg, hasPrefix_append _ _, ?_⟩
    rintro n rfl
    simp [Value.isString] at hv
  · intro hstr
    exact ⟨_, _, _, extract_ok P S hP hS (strings_of_all hstr)⟩

/-- C7 at `P = {"foo": "bar", "httpHeaderName1": 5}`, `S = {"httpHeaderValue1": true}`:
the call panics. -/
theorem C7_panic_on_non_string_name_witness :
    ExtractHeadersFromJSONData
      [("foo", Value.string "bar"), ("httpHeaderName1", Value.number 5)]
      [("httpHeaderValue1", Value.bool true)] = .error Panic.interfaceConversion :=
  (C7_panic_on_non_string_name
    [("foo", Value.string "bar"), ("httpHeaderName1", Value.number 5)]
    [("httpHeaderValue1", Value.bool true)] (by decide) (by decide)).1
    "1" (Value.number 5) (by decide) (by decide)

/-- C8, as stated, fails: the call does not return when another header-name key
holds a value that is not a string.  With
`P = {"httpHeaderName1": "X", "httpHeaderName2": 5}` and `S = {}` the key
`httpHeaderName1` holds a string, `S` has no key `httpHeaderValue1`, and the
call panics. -/
theorem C8_counterexample :
    GoMap.get [("httpHeaderName1", Value.string "X"), ("httpHeaderName2", Value.number 5)]
      (Sprintf_d "httpHeaderName" 1) = some (Value.string "X") ∧
    ¬ GoMap.HasKey ([] : GoMap Value) (Sprintf_d "httpHeaderValue" 1) ∧
    ExtractHeadersFromJSONData
      [("httpHeaderName1", Value.string "X"), ("httpHeaderName2", Value.number 5)] []
      = .error Panic.interfaceConversion := by
  refine ⟨by decide, by decide, by rfl⟩

/-- C8, amended: when `P` has a key `httpHeaderName<t>` with a string value `n`,
`S` has no key `httpHeaderValue<t>`, and every value under a key of `P` that
begins with `httpHeaderName` is a string, the call returns, `n` is a key of the
returned headers, `httpHeaderName<t>` is not a key of the returned plain map,
and every key of `S` that is not the value key of another header-name key of
`P` is in the returned secret map with its value. -/
theorem C8_unmatched_name_tolerated (P S : GoMap Value) (t n : String)
    (hP : GoMap.WF P) (hS : GoMap.WF S)
    (hname : GoMap.get P ("httpHeaderName" ++ t) = some (Value.string n))
    (hno : ¬ GoMap.HasKey S ("httpHeaderValue" ++ t))
    (hstr : ∀ e ∈ P, HasPrefix e.1 "httpHeaderName" = true → e.2.isString = true) :
    ∃ plain secret headers,
      ExtractHeadersFromJSONData P S = .ok (plain, secret, headers) ∧
      GoMap.HasKey headers n ∧
      ¬ GoMap.HasKey plain ("httpHeaderName" ++ t) ∧
      ∀ k, GoMap.HasKey S k →
        (∀ u : String, u ≠ t → GoMap.HasKey P ("httpHeaderName" ++ u) →
          k ≠ "httpHeaderValue" ++ u) →
        GoMap.get secret k = GoMap.get S k := by
  refine ⟨_, _, _, extract_ok P S hP hS (strings_of_all hstr), ?_, ?_, ?_⟩
  · rw [hasKey_setAllTrue_nil, mem_headerNames]
    exact ⟨_, hasPrefix_append _ _, GoMap.mem_of_get hname⟩
  · simp [GoMap.HasKey, get_plain_result, hasPrefix_append]
  · intro k hk hother
    apply get_secret_result_kept
    intro d hd hp e
    obtain ⟨u, rfl⟩ := (hasPrefix_iff d "httpHeaderName").mp hp
    rw [replace_leading "httpHeaderName" "httpHeaderValue" u (by decide)] at e
    by_cases hu : u = t
    · subst hu
      subst e
      exact hno hk
    · exact hother u hu hd e.symm

/-- C8, amended, at `P = {"httpHeaderName1": "X-Scope-OrgID", "foo": "bar"}` and
`S = {"baz": "qux"}`. -/
theorem C8_unmatched_name_tolerated_witness :
    ∃ plain secret headers,
      ExtractHeadersFromJSONData
        [("httpHeaderName1", Value.string "X-Scope-OrgID"), ("foo", Value.string "bar")]
        [("baz", Value.string "qux")] = .ok (plain, secret, headers) ∧
      GoMap.HasKey headers "X-Scope-OrgID" ∧
      ¬ GoMap.HasKey plain ("httpHeaderName" ++ "1") ∧
      ∀ k, GoMap.HasKey [("baz", Value.string "qux")] k →
        (∀ u : String, u ≠ "1" → GoMap.HasKey
            [("httpHeaderName1", Value.string "X-Scope-OrgID"), ("foo", Value.string "bar")]
            ("httpHeaderName" ++ u) →
          k ≠ "httpHeaderValue" ++ u) →
        GoMap.get secret k = GoMap.get [("baz", Value.string "qux")] k :=
  C8_unmatched_name_tolerated
    [("httpHeaderName1", Value.string "X-Scope-OrgID"), ("foo", Value.string "bar")]
    [("baz", Value.string "qux")] "1" "X-Scope-OrgID"
    (by decide) (by decide) (by decide) (by decide) (by decide)

theorem get_none_of_fresh {P : GoMap Value}
    (hfresh : ∀ e ∈ P, HasPrefix e.1 "httpHeaderName" = false) {k : String}
    (hp : HasPrefix k "httpHeaderName" = true) : GoMap.get P k = none := by
  cases hg : GoMap.get P k with
  | none => rfl
  | some v =>
    have hk : GoMap.HasKey P k := by simp [GoMap.HasKey, hg]
    rw [not_hasPrefix_of_fresh hfresh hk] at hp
    cases hp

/-- C9: when no key of `P` begins with `httpHeaderName` and `S` has no key
`httpHeaderValue1`, decoding `P + {httpHeaderName1: n}` and
`S + {httpHeaderValue1: x}`, read in any iteration order, returns three maps
that are `P`, `S` and the headers `{n: "true"}`.  The scenario of the specification is
the last conjunct. -/
theorem C9_decode_one_pair (n : String) (x : Value) (P S J S' : GoMap Value)
    (hP : GoMap.WF P) (hS : GoMap.WF S)
    (hfresh : ∀ e ∈ P, HasPrefix e.1 "httpHeaderName" = false)
    (hS1 : ¬ GoMap.HasKey S "httpHeaderValue1")
    (hJ : J.Perm (GoMap.set P "httpHeaderName1" (Value.string n)))
    (hS' : S'.Perm (GoMap.set S "httpHeaderValue1" x)) :
    (∃ plain secret headers,
      ExtractHeadersFromJSONData J S' = .ok (plain, secret, headers) ∧
      GoMap.WF plain ∧ GoMap.WF secret ∧ GoMap.WF headers ∧
      GoMap.Equiv plain P ∧ GoMap.Equiv secret S ∧ GoMap.Equiv headers [(n, "true")]) ∧
    ExtractHeadersFromJSONData
      [("httpHeaderName1", Value.string "X-Scope-OrgID"), ("foo", Value.string "bar")]
      [("httpHeaderValue1", Value.string "set"), ("baz", Value.string "qux")] =
      .ok ([("foo", Value.string "bar")], [("baz", Value.string "qux")],
        [("X-Scope-OrgID", "true")]) := by
  refine ⟨?_, by rfl⟩
  have hwJ : GoMap.WF J :=
    (List.Perm.nodup_iff (hJ.map Prod.fst)).mpr (GoMap.wf_set hP _ _)
  have hwS' : GoMap.WF S' :=
    (List.Perm.nodup_iff (hS'.map Prod.fst)).mpr (GoMap.wf_set hS _ _)
  have heJ := GoMap.equiv_of_perm hwJ hJ
  have heS := GoMap.equiv_of_perm hwS' hS'
  have hpre : HasPrefix "httpHeaderName1" "httpHeaderName" = true := by decide
  have hrep : Replace "httpHeaderName1" "httpHeaderName" "httpHeaderValue" 1
      = "httpHeaderValue1" := by decide
  have honly : ∀ k v, GoMap.get J k = some v → HasPrefix k "httpHeaderName" = true →
      k = "httpHeaderName1" ∧ v = Value.string n := by
    intro k v hg hp
    rw [heJ k, GoMap.get_set] at hg
    split_ifs at hg with hk
    · exact ⟨hk.symm, (Option.some.inj hg).symm⟩
    · rw [get_none_of_fresh hfresh hp] at hg
      cases hg
  have hJ1 : GoMap.get J "httpHeaderName1" = some (Value.string n) := by
    rw [heJ, GoMap.get_set_self]
  refine ⟨_, _, _, extract_ok J S' hwJ hwS' (fun k v hg hp => ⟨n, (honly k v hg hp).2⟩),
    wf_deleteAll _ _ hwJ, wf_deleteAll _ _ hwS', wf_setAllTrue _ _ List.nodup_nil,
    ?_, ?_, ?_⟩
  · intro k
    rw [get_plain_result]
    split_ifs with hp
    · exact (get_none_of_fresh hfresh hp).symm
    · rw [heJ k, GoMap.get_set_ne]
      rintro rfl
      exact hp hpre
  · intro k
    by_cases hk : k = "httpHeaderValue1"
    · subst hk
      have := get_secret_result_removed J S' "httpHeaderName1"
        (by simp [GoMap.HasKey, hJ1]) hpre
      rw [hrep] at this
      rw [this]
      cases hg : GoMap.get S "httpHeaderValue1" with
      | none => rfl
      | some v => exact absurd (by simp [GoMap.HasKey, hg]) hS1
    · rw [get_secret_result_kept J S' k, heS k, GoMap.get_set_ne _ _ (Ne.symm hk)]
      intro d hd hp e
      obtain ⟨v, hv⟩ := Option.isSome_iff_exists.mp hd
      obtain ⟨rfl, _⟩ := honly d v hv hp
      exact hk (by rw [← e, hrep])
  · intro m
    rw [get_setAllTrue]
    have hmem : m ∈ headerNames J ↔ n = m := by
      rw [mem_headerNames]
      constructor
      · rintro ⟨k, hp, hm⟩
        have := (honly k _ (GoMap.get_of_mem hwJ hm) hp).2
        exact (Value.string.inj this).symm
      · rintro rfl
        exact ⟨_, hpre, GoMap.mem_of_get hJ1⟩
    by_cases h : n = m
    · simp [hmem.mpr h, GoMap.get, h]
    · have h' : m ∉ headerNames J := fun hm => h (hmem.mp hm)
      simp [h', GoMap.get, h]

/-- C9 at `n = "Authorization"`, `x = true`, `P = {"foo": "bar"}` and `S = {}`. -/
theorem C9_decode_one_pair_witness :
    ∃ plain secret headers,
      ExtractHeadersFromJSONData
        [("foo", Value.string "bar"), ("httpHeaderName1", Value.string "Authorization")]
        [("httpHeaderValue1", Value.bool true)] = .ok (plain, secret, headers) ∧
      GoMap.WF plain ∧ GoMap.WF secret ∧ GoMap.WF headers ∧
      GoMap.Equiv plain [("foo", Value.string "bar")] ∧ GoMap.Equiv secret [] ∧
      GoMap.Equiv headers [("Authorization", "true")] :=
  (C9_decode_one_pair "Authorization" (Value.bool true) [("foo", Value.string "bar")] []
    [("foo", Value.string "bar"), ("httpHeaderName1", Value.string "Authorization")]
    [("httpHeaderValue1", Value.bool true)]
    (by decide) (by decide) (by decide) (by decide)
    (List.Perm.refl _) (List.Perm.refl _)).1

/-- C10: when no key of `P` begins with `httpHeaderName` and `S` has none of the
keys `httpHeaderValue1`, ..., `httpHeaderValue<n>`, `n` the number of entries
of `H`, decoding the two maps returned by `JSONDataWithHeaders P S H`, read in
any iteration order, returns, and the returned plain and secret maps are `P`
and `S`; and with `H` empty `JSONDataWithHeaders` returns `P` and `S`. -/
theorem C10_decode_undoes_encode (P S : GoMap Value) (H : GoMap String) (J S' : GoMap Value)
    (hP : GoMap.WF P) (hS : GoMap.WF S) (_hH : GoMap.WF H)
    (hfresh : ∀ e ∈ P, HasPrefix e.1 "httpHeaderName" = false)
    (hfreshS : ∀ i, 1 ≤ i → i ≤ H.length → ¬ GoMap.HasKey S (Sprintf_d "httpHeaderValue" i))
    (hJ : J.Perm (JSONDataWithHeaders P S H).1)
    (hS' : S'.Perm (JSONDataWithHeaders P S H).2) :
    (∃ plain secret headers,
      ExtractHeadersFromJSONData J S' = .ok (plain, secret, headers) ∧
      GoMap.WF plain ∧ GoMap.WF secret ∧
      GoMap.Equiv plain P ∧ GoMap.Equiv secret S) ∧
    GoMap.Equiv (JSONDataWithHeaders P S []).1 P ∧
    GoMap.Equiv (JSONDataWithHeaders P S []).2 S := by
  obtain ⟨hwJ, hwS', heJ, heS, hok, hkeys, _⟩ :=
    roundtrip_core P S H J S' hP hS hfresh hJ hS'
  refine ⟨⟨_, _, _, hok, wf_deleteAll _ _ hwJ, wf_deleteAll _ _ hwS', ?_, ?_⟩, ?_, ?_⟩
  · intro k
    rw [get_plain_result]
    split_ifs with hp
    · exact (get_none_of_fresh hfresh hp).symm
    · rw [heJ k, get_setNumbered_other]
      intro i _ e
      exact hp (e ▸ hasPrefix_sprintf_d _ _)
  · intro k
    by_cases hk : ∃ i, i < H.length ∧ k = Sprintf_d "httpHeaderValue" (1 + i)
    · obtain ⟨i, hi, rfl⟩ := hk
      have hmem : Sprintf_d "httpHeaderValue" (1 + i) ∈ (headerKeys J).map
          (fun k => Replace k "httpHeaderName" "httpHeaderValue" 1) :=
        List.mem_map.mpr ⟨Sprintf_d "httpHeaderName" (1 + i),
          (hkeys _).mpr ⟨i, hi, rfl⟩, replace_sprintf_d _⟩
      rw [get_deleteAll, if_pos hmem]
      cases hg : GoMap.get S (Sprintf_d "httpHeaderValue" (1 + i)) with
      | none => rfl
      | some v =>
        exact absurd (by simp [GoMap.HasKey, hg]) (hfreshS (1 + i) (by omega) (by omega))
    · have hne : ∀ i, i < (H.map Prod.snd).length →
          k ≠ Sprintf_d "httpHeaderValue" (1 + i) :=
        fun i hi e => hk ⟨i, by simpa using hi, e⟩
      rw [get_secret_result_kept J S' k, heS k, get_setNumbered_other _ _ _ _ _ hne]
      intro d hd hp e
      obtain ⟨i, hi, rfl⟩ := (hkeys d).mp
        ((mem_headerKeys J d).mpr ⟨hp, (GoMap.hasKey_iff J d).mp hd⟩)
      rw [replace_sprintf_d] at e
      exact hk ⟨i, hi, e.symm⟩
  · rw [jsonDataWithHeaders_eq P S [] hP hS]
    intro k
    rfl
  · rw [jsonDataWithHeaders_eq P S [] hP hS]
    intro k
    rfl

/-- C10 at `P = {"foo": "bar"}`, `S = {"baz": "qux"}` and
`H = {"X-Scope-OrgID": "1"}`, the encoded maps read in the reverse order. -/
theorem C10_decode_undoes_encode_witness :
    ∃ plain secret headers,
      ExtractHeadersFromJSONData
        [("httpHeaderName1", Value.string "X-Scope-OrgID"), ("foo", Value.string "bar")]
        [("httpHeaderValue1", Value.string "1"), ("baz", Value.string "qux")]
        = .ok (plain, secret, headers) ∧
      GoMap.WF plain ∧ GoMap.WF secret ∧
      GoMap.Equiv plain [("foo", Value.string "bar")] ∧
      GoMap.Equiv secret [("baz", Value.string "qux")] :=
  (C10_decode_undoes_encode [("foo", Value.string "bar")] [("baz", Value.string "qux")]
    [("X-Scope-OrgID", "1")]
    [("httpHeaderName1", Value.string "X-Scope-OrgID"), ("foo", Value.string "bar")]
    [("httpHeaderValue1", Value.string "1"), ("baz", Value.string "qux")]
    (by decide) (by decide) (by decide) (by decide)
    (by
      intro i h1 h2
      have hi : i = 1 := by simp at h2; omega
      subst hi
      decide)
    (List.Perm.swap _ _ _) (List.Perm.swap _ _ _)).1

/-- C5: on a heap that holds the maps of the caller, a call of
`JSONDataWithHeaders`, and a call of `ExtractHeadersFromJSONData` that returns,
leaves every map object that was on the heap with the entries it had, so the
maps `P`, `S` and `H` of the caller are unchanged; the returned maps are new
objects, the clones, and they hold the results of the call. -/
theorem C5_inputs_not_mutated (h : Heap) (P S H : Option Nat)
    (hP : h.ValidIface P) (hS : h.ValidIface S) (hH : h.ValidString H) :
    ((∀ a, a < h.ifaceMaps.length →
        (JSONDataWithHeadersH h P S H).1.ifaceAt a = h.ifaceAt a) ∧
      (∀ b, b < h.stringMaps.length →
        (JSONDataWithHeadersH h P S H).1.stringAt b = h.stringAt b) ∧
      (JSONDataWithHeadersH h P S H).1.ifaceMap P = h.ifaceMap P ∧
      (JSONDataWithHeadersH h P S H).1.ifaceMap S = h.ifaceMap S ∧
      (JSONDataWithHeadersH h P S H).1.stringMap H = h.stringMap H ∧
      h.ifaceMaps.length ≤ (JSONDataWithHeadersH h P S H).2.1 ∧
      h.ifaceMaps.length ≤ (JSONDataWithHeadersH h P S H).2.2 ∧
      ((JSONDataWithHeadersH h P S H).1.ifaceAt (JSONDataWithHeadersH h P S H).2.1,
       (JSONDataWithHeadersH h P S H).1.ifaceAt (JSONDataWithHeadersH h P S H).2.2) =
        JSONDataWithHeaders (h.ifaceMap P) (h.ifaceMap S) (h.stringMap H)) ∧
    (∀ (h' : Heap) (plain secret headers : Nat),
      ExtractHeadersFromJSONDataH h P S = .ok (h', plain, secret, headers) →
      (∀ a, a < h.ifaceMaps.length → h'.ifaceAt a = h.ifaceAt a) ∧
      (∀ b, b < h.stringMaps.length → h'.stringAt b = h.stringAt b) ∧
      h'.ifaceMap P = h.ifaceMap P ∧
      h'.ifaceMap S = h.ifaceMap S ∧
      h.ifaceMaps.length ≤ plain ∧ h.ifaceMaps.length ≤ secret ∧
      h.stringMaps.length ≤ headers ∧
      ExtractHeadersFromJSONData (h.ifaceMap P) (h.ifaceMap S)
        = .ok (h'.ifaceAt plain, h'.ifaceAt secret, h'.stringAt headers)) := by
  constructor
  · obtain ⟨f, g, p₁, p₂, hval⟩ := jsonDataWithHeadersH_spec h P S H hS hH
    exact ⟨f, g, ifaceMap_of_frame hP f, ifaceMap_of_frame hS f, stringMap_of_frame hH g,
      by rw [p₁], by rw [p₂]; omega, hval⟩
  · intro h' plain secret headers hr
    obtain ⟨f, g, p₁, p₂, p₃, hval⟩ := extractHeadersH_spec h P S hS h' plain secret headers hr
    exact ⟨f, g, ifaceMap_of_frame hP f, ifaceMap_of_frame hS f,
      by rw [p₁], by rw [p₂]; omega, by rw [p₃], hval⟩

/-- C5 on the heap that holds `{"httpHeaderName1": "old", "foo": "bar"}` at
address 0, `{"httpHeaderValue1": "set"}` at address 1 and the headers
`{"X-Scope-OrgID": "1"}`: after encoding, and after decoding, the map at
address 0 is as before. -/
theorem C5_inputs_not_mutated_witness :
    (JSONDataWithHeadersH
      ⟨[[("httpHeaderName1", Value.string "old"), ("foo", Value.string "bar")],
        [("httpHeaderValue1", Value.string "set")]], [[("X-Scope-OrgID", "1")]]⟩
      (some 0) (some 1) (some 0)).1.ifaceMap (some 0)
      = [("httpHeaderName1", Value.string "old"), ("foo", Value.string "bar")] ∧
    Heap.ifaceMap
      ⟨[[("httpHeaderName1", Value.string "old"), ("foo", Value.string "bar")],
        [("httpHeaderValue1", Value.string "set")], [("foo", Value.string "bar")], []],
       [[("X-Scope-OrgID", "1")], [("old", "true")]]⟩ (some 0)
      = [("httpHeaderName1", Value.string "old"), ("foo", Value.string "bar")] :=
  ⟨(C5_inputs_not_mutated
      ⟨[[("httpHeaderName1", Value.string "old"), ("foo", Value.string "bar")],
        [("httpHeaderValue1", Value.string "set")]], [[("X-Scope-OrgID", "1")]]⟩
      (some 0) (some 1) (some 0)
      (show 0 < 2 by decide) (show 1 < 2 by decide) (show 0 < 1 by decide)).1.2.2.1,
   ((C5_inputs_not_mutated
      ⟨[[("httpHeaderName1", Value.string "old"), ("foo", Value.string "bar")],
        [("httpHeaderValue1", Value.string "set")]], [[("X-Scope-OrgID", "1")]]⟩
      (some 0) (some 1) (some 0)
      (show 0 < 2 by decide) (show 1 < 2 by decide) (show 0 < 1 by decide)).2
      ⟨[[("httpHeaderName1", Value.string "old"), ("foo", Value.string "bar")],
        [("httpHeaderValue1", Value.string "set")], [("foo", Value.string "bar")], []],
       [[("X-Scope-OrgID", "1")], [("old", "true")]]⟩ 2 3 1 (by rfl)).2.2.1⟩

end Gapi
